import Mathlib

/-!
Verification of the nonuniform compressed-map engine (`src/nonuniform.rs`).

The file shallowly embeds the Rust source: `u32` locators become `Nat` with
explicit `% 2^32` where the source wraps, the `HashMap` of value counts becomes
an association list (its entry order standing for one iteration order of the
randomized hash map), and the external uniform static-function builder from
`uniform.rs` (not part of the sources) is modelled from the specification as an
abstract collaborator parameter together with its retrieval contract.
-/

namespace FrayedCascade

/-- The locator space size `2^32`. -/
def U32 : Nat := 4294967296

/-- `u32::MAX`. -/
def U32M : Nat := 4294967295

/-- `usize::MAX` (64-bit). -/
def USIZE_MAX : Nat := 18446744073709551615

abbrev Locator := Nat

/-- `high_bit`: `Locator::BITS - 1 - x.leading_zeros()`, the position of the
highest set bit of a `u32` (the source panics on 0; the claims only apply it
to nonzero locators).  Rendered as a bit scan; `highBit_eq_log2` below
identifies it with `Nat.log2` on nonzero 32-bit values. -/
def highBit (x : Nat) : Nat :=
  (((List.range 32).filter (fun i => x.testBit i)).getLast?).getD 0

/-- `floor_power_of_2`: next power of 2 that is `≤ x`; minimum 1. -/
def floorPow2 (x : Nat) : Nat := if x = 0 then 1 else 1 <<< highBit x

/-- Bitwise complement within 32 bits (`!x` on `u32`, for `x < 2^32`). -/
def not32 (x : Nat) : Nat := U32M ^^^ x

/-- `u32::count_ones`. -/
def popcount32 (x : Nat) : Nat := ((List.range 32).filter (fun i => x.testBit i)).length

/-- `u32::trailing_zeros` (32 for input 0). -/
def tz32 (x : Nat) : Nat := (((List.range 32).filter (fun i => x.testBit i)).head?).getD 32

/-- The positions of the set bits of a 32-bit word, in ascending order. -/
def planBits (x : Nat) : List Nat := (List.range 32).filter (fun i => x.testBit i)

/-- `x.wrapping_neg()` on `u32`. -/
def wneg32 (x : Nat) : Nat := (U32 - x % U32) % U32

/-- A power of two (the mathematical notion used by the spec). -/
def isPow2 (w : Nat) : Bool := decide (w ≠ 0) && decide (w &&& (w - 1) = 0)

/-- The truncating cast `ratio as Locator` applied to `(count << 32) / total`
(the `u128` quotient is reduced mod `2^32` by the cast). -/
def ratio32 (c total : Nat) : Nat := (c * U32) / total % U32

/-! ## Stable sorting

`Vec::sort_by` / `sort_by_key` are stable sorts; a stable sort is uniquely
determined by the comparator's total preorder and the input order, so the
source's stable merge sort is rendered by the (extensionally equal, and
kernel-computable) stable insertion sort below: each element is inserted
after all elements the comparator does not place strictly after it. -/

section StableSort

variable {α : Type}

/-- Insert `a` (originally later in the list) behind every `b` with
`le b a` — the stable position. -/
def stInsert (le : α → α → Bool) (a : α) : List α → List α
  | [] => [a]
  | b :: bs => if le b a then b :: stInsert le a bs else a :: b :: bs

/-- Stable sort with respect to the boolean comparator `le`. -/
def stSort (le : α → α → Bool) (l : List α) : List α :=
  l.foldl (fun acc a => stInsert le a acc) []

end StableSort

/-! ## `formulate_plan` -/

section FormulatePlan

variable {V : Type} [LinearOrder V]

/-- `compare_fit`: priority order used to expand widths
(`score1 = w1*c2` versus `score2 = w2*c1`, ties broken on `(w, c)`). -/
def compareFit (a1 a2 : V × Nat × Nat) : Ordering :=
  let score1 := a1.2.1 * a2.2.2
  let score2 := a2.2.1 * a1.2.2
  if score1 ≠ score2 then compare score1 score2
  else (compare a1.2.1 a2.2.1).then (compare a1.2.2 a2.2.2)

/-- `sort_by(compare_fit)` is a stable sort; its "not greater" boolean. -/
def fitLE (a1 a2 : V × Nat × Nat) : Bool := compareFit a1 a2 != Ordering.gt

/-- The width-expansion loop: in priority order, each item's width grows by
`min remaining width` until `remaining` is exhausted. -/
def expandItems : Nat → List (V × Nat × Nat) → List (V × Nat × Nat)
  | _, [] => []
  | remaining, (k, w, c) :: rest =>
    if remaining = 0 then (k, w, c) :: rest
    else
      let e := min remaining w
      (k, (w + e) % U32, c) :: expandItems (remaining - e) rest

/-- The canonical sort key order: `(count_ones w, -(trailing_zeros w), k)`
ascending; the negation is rendered as `32 - trailing_zeros` (same order,
since `trailing_zeros ≤ 32`). -/
def canonLE (a1 a2 : V × Nat × Nat) : Bool :=
  let p1 := popcount32 a1.2.1
  let p2 := popcount32 a2.2.1
  let t1 := 32 - tz32 a1.2.1
  let t2 := 32 - tz32 a2.2.1
  decide (p1 < p2 ∨ (p1 = p2 ∧ (t1 < t2 ∨ (t1 = t2 ∧ a1.1 ≤ a2.1))))

/-- The final loop of `formulate_plan`: build the response map, value-number
map, interval vector and plan from the canonically sorted items.
State: running `total`, accumulated `plan`, running value number `count`. -/
def planFold : List (V × Nat × Nat) → Nat → Nat → Nat →
    List (Locator × V) × List (V × Nat) × List (Nat × Locator × Locator) × Nat
  | [], _, plan, _ => ([], [], [], plan)
  | (k, w, c) :: rest, total, plan, count =>
    let plan1 := if w &&& (w - 1) = 0 then plan ||| w
      else plan ||| (1 <<< highBit w)
    let r := planFold rest ((total + w) % U32) plan1 (count + 1)
    ((total, k) :: r.1, (k, count) :: r.2.1, (c, total, (total + (w - 1)) % U32) :: r.2.2.1, r.2.2.2)

/-- `formulate_plan`.  The `counts` hash map is embedded as an association
list (distinct values with their multiplicities); its order stands for the
hash map's iteration order.  Returns `(plan, value_map, interval_vec, resp)`. -/
def formulatePlan (counts : List (V × Nat)) :
    Nat × List (V × Nat) × List (Nat × Locator × Locator) × List (Locator × V) :=
  if counts.length ≤ 1 then
    (0, counts.map (fun x => (x.1, 0)),
        counts.map (fun x => (x.2, 0, U32M)),
        counts.map (fun x => ((0 : Locator), x.1)))
  else
    let total := (counts.map (·.2)).sum
    let items0 := counts.map (fun x => (x.1, floorPow2 (ratio32 x.2 total), x.2))
    let totalWidth := (items0.map (·.2.1)).sum % U32
    let items1 := stSort fitLE items0
    let remaining := wneg32 totalWidth
    let items2 := expandItems remaining items1
    let items3 := stSort canonLE items2
    let r := planFold items3 0 0 0
    (r.2.2.2, r.2.1, r.2.2.1, r.1)

end FormulatePlan

/-! ## Value counting (`build`'s first loop) -/

section Counts

variable {K V : Type} [DecidableEq V]

/-- One step of `*counts.entry(v).or_insert(0) += 1`. -/
def bumpCount : List (V × Nat) → V → List (V × Nat)
  | [], v => [(v, 1)]
  | (w, c) :: rest, v => if w = v then (w, c + 1) :: rest else (w, c) :: bumpCount rest v

/-- The value-count accumulation of `build`.  Entries appear in first-occurrence
order, which stands for one possible iteration order of the randomized
`HashMap` (the order is not a function of the input mapping; see C9). -/
def countsList (l : List (K × V)) : List (V × Nat) :=
  l.foldl (fun acc kv => bumpCount acc kv.2) []

end Counts

/-! ## Data structures

`MapCore` is the per-phase block structure from `uniform.rs` (not among the
sources).  Modelled from the spec: it carries a 128-bit hash key (16 bytes),
the bit width, the block count, and the raw block bytes; its query semantics
travels separately as a function (see `UBResult`). -/

structure MapCore where
  hash_key : List Nat
  bits_per_value : Nat
  nblocks : Nat
  blocks : List Nat
deriving DecidableEq, Repr

/-- `CompressedMap` (the serializable data; the key type is phantom in the
source and the per-phase query functions are kept alongside, see `build`). -/
structure CompressedMap (V : Type) where
  plan : Nat
  response_map : List (Locator × V)
  salt : List Nat
  core : List MapCore
deriving DecidableEq, Repr

/-- `BuildOptions` from `uniform.rs` (not among the sources).  Modelled from
the spec: caller hash-seed, retry counters, per-phase bit width and shift,
thread bound. -/
structure BuildOptions where
  key_gen : Option (List Nat)
  max_tries : Nat
  try_num : Nat
  bits_per_value : Option Nat
  shift : Nat
  max_threads : Option Nat
deriving Repr

/-- Result of one uniform sub-build.  Modelled from the spec: the collaborator
returns the block structure, its total query function (`query_hash` /
`try_query` on the built phase), and the number of attempts used
(reported back through `BuildOptions::try_num`). -/
structure UBResult (K : Type) where
  core : MapCore
  qfun : K → Nat
  tnum : Nat

/-- The uniform static-function builder collaborator (`CompressedRandomMap::build`
from `uniform.rs`, not among the sources).  Modelled from the spec as an
abstract parameter: it receives the staged `(key, target locator)` pairs and
the phase options, and may fail (retry exhaustion). -/
def UniformBuilder (K : Type) : Type := List (K × Locator) → BuildOptions → Option (UBResult K)

/-! ## `CompressedMap::build` -/

section Build

variable {K V : Type} [DecidableEq K] [LinearOrder V]

/-- Body of the `phase_bits` loop, with an explicit iteration bound (each pass
clears the lowest set bit, so a 32-bit plan loops at most 32 times; the fuel
makes the recursion structural). -/
def phaseBitsFuel : Nat → Nat → List Nat
  | 0, _ => []
  | fuel + 1, planTmp =>
    if planTmp = 0 then []
    else
      let planTmp2 := planTmp &&& (planTmp - 1)
      let beforePlan := (planTmp - 1) &&& not32 planTmp
      let beforePlan2 := ((planTmp2 + U32 - 1) % U32) &&& not32 planTmp2
      (beforePlan2 &&& not32 beforePlan) :: phaseBitsFuel fuel planTmp2

/-- The `phase_bits` loop: splits the plan into one mask per phase; phase `i`
owns the bit range from its plan bit up to the next plan bit (the top phase
extends to bit 31).  Rendering of the `while plan_tmp != 0` loop. -/
def phaseBitsLoop (planTmp : Nat) : List Nat := phaseBitsFuel 32 planTmp

/-- State of the odd-man-out scan over `interval_vec`. -/
structure OmoScan where
  lo_omo : Nat
  odd_man_out : Nat
  phase_omo : Nat
  min_phase : Nat
  n_omo : Nat
  resolve : List Nat
  phase_counts : List Nat
deriving Repr

/-- One step of the odd-man-out scan (loop body over `interval_vec[i]`). -/
def omoStep (nphases : Nat) (pb : List Nat) (s : OmoScan) (i : Nat)
    (e : Nat × Locator × Locator) : OmoScan :=
  let width := ((e.2.2 - e.2.1) + 1) % U32
  if width &&& (width - 1) ≠ 0 then
    let po := (List.range nphases).foldl
      (fun acc ph => if pb.getD ph 0 &&& width ≠ 0 then (ph, min acc.2 ph) else acc)
      (s.phase_omo, s.min_phase)
    { s with odd_man_out := i, n_omo := e.1, lo_omo := e.2.1,
             resolve := s.resolve ++ [255], phase_omo := po.1, min_phase := po.2 }
  else
    match (List.range nphases).find? (fun ph => pb.getD ph 0 &&& width ≠ 0) with
    | some ph =>
      { s with resolve := s.resolve ++ [ph],
               phase_counts := s.phase_counts.set ph (s.phase_counts.getD ph 0 + e.1) }
    | none => s

/-- The whole odd-man-out scan (`usize::MAX` sentinels as in the source). -/
def omoScan (nphases : Nat) (pb : List Nat) (iv : List (Nat × Locator × Locator)) : OmoScan :=
  (iv.enum.foldl (fun s p => omoStep nphases pb s p.1 p.2)
    { lo_omo := 0, odd_man_out := USIZE_MAX, phase_omo := USIZE_MAX,
      min_phase := USIZE_MAX, n_omo := 0,
      resolve := [], phase_counts := List.replicate nphases 0 })

/-- `value_map[v]` (hash-map indexing; panics if absent, every input value is
present for the inputs `build` produces). -/
def lookupVM [DecidableEq V] (vm : List (V × Nat)) (v : V) : Nat :=
  ((vm.find? (fun p => decide (p.1 = v))).map (·.2)).getD 0

/-- Everything `build` computes before the phase loop. -/
structure Prep (K V : Type) where
  counts : List (V × Nat)
  plan : Nat
  vm : List (V × Nat)
  iv : List (Nat × Locator × Locator)
  resp : List (Locator × V)
  nphases : Nat
  pb : List Nat
  scan : OmoScan
  offsets : List Nat
  omoPairs : List (K × Locator)
  groups : List (List (K × Locator))

/-- `phase_offsets`: running total starting at `n_omo`. -/
def phaseOffsets (nOmo : Nat) (phaseCounts : List Nat) : List Nat :=
  (List.range phaseCounts.length).map
    (fun p => nOmo + ((phaseCounts.take p).sum))

/-- Compute the pre-phase data of `build` (counts assumed of length ≥ 2).
The staging array `values_by_phase` is materialized as the odd-man-out block
followed by the per-phase groups, each in input order (the source fills the
same layout through per-phase write cursors). -/
def prep (l : List (K × V)) : Prep K V :=
  let counts := countsList l
  let fp := formulatePlan counts
  let plan := fp.1
  let vm := fp.2.1
  let iv := fp.2.2.1
  let resp := fp.2.2.2
  let nphases := popcount32 plan
  let pb := phaseBitsLoop plan
  let scan := omoScan nphases pb iv
  let omoPairs := l.filterMap (fun kv =>
    let vi := lookupVM vm kv.2
    if vi = scan.odd_man_out then some (kv.1, (iv.getD vi (0, 0, 0)).2.2) else none)
  let groups := (List.range nphases).map (fun ph =>
    l.filterMap (fun kv =>
      let vi := lookupVM vm kv.2
      if vi ≠ scan.odd_man_out ∧ scan.resolve.getD vi 255 = ph
      then some (kv.1, (iv.getD vi (0, 0, 0)).2.2) else none))
  { counts := counts, plan := plan, vm := vm, iv := iv, resp := resp,
    nphases := nphases, pb := pb, scan := scan,
    offsets := phaseOffsets scan.n_omo scan.phase_counts,
    omoPairs := omoPairs, groups := groups }

/-- The participating `(key, target)` pairs of one phase, in bitset index
order: the selected part of the odd-man-out block, then the normal blocks of
all phases up to and including this one (the source selects the index range
`omo_offset..phase_offsets_cur[phase]`, which covers exactly those blocks). -/
def participants (pr : Prep K V) (p : Nat) (cv : List Nat) : List (K × Locator) :=
  let omoSel :=
    if p = pr.scan.phase_omo then
      ((pr.omoPairs.zip cv).filterMap
        (fun x => if x.2 < pr.scan.lo_omo then some x.1 else none))
    else if p > pr.scan.phase_omo then pr.omoPairs
    else []
  omoSel ++ ((pr.groups.take (p + 1)).flatten)

instance : Inhabited MapCore := ⟨⟨[], 0, 0, []⟩⟩

/-- State carried through the phase loop. -/
structure PhaseState (K : Type) where
  cv : List Nat
  saltAcc : List Nat
  cores : List MapCore
  fs : List (K → Nat)
  tries : Nat

/-- The options handed to the uniform sub-builder for one phase. -/
def phaseOptions (opts : BuildOptions) (pr : Prep K V) (st : PhaseState K)
    (p : Nat) : BuildOptions :=
  { max_tries := min (opts.max_tries - st.tries) 255, try_num := 0,
    key_gen := if p = 0 then opts.key_gen
      else some ((st.cores.getD (p - 1) default).hash_key),
    bits_per_value := some (popcount32 (pr.pb.getD p 0)),
    shift := tz32 (pr.pb.getD p 0), max_threads := opts.max_threads }

/-- State update after a successful phase sub-build: odd-man-out locator
accumulation (in the window below `phase_omo`), salt byte, core, query
function, and retry bookkeeping. -/
def phaseApply (pr : Prep K V) (st : PhaseState K) (p : Nat) (r : UBResult K) :
    PhaseState K :=
  let shift := tz32 (pr.pb.getD p 0)
  { cv := if pr.scan.min_phase ≤ p ∧ p < pr.scan.phase_omo then
        List.zipWith (fun (pr1 : K × Locator) c => c ||| ((r.qfun pr1.1 <<< shift) % U32))
          pr.omoPairs st.cv
      else st.cv,
    saltAcc := st.saltAcc ++ [r.tnum % 256],
    cores := st.cores ++ [r.core], fs := st.fs ++ [r.qfun],
    tries := st.tries + r.tnum }

/-- One iteration of the phase loop (propagating sub-build failure). -/
def phaseStep (ub : UniformBuilder K) (opts : BuildOptions) (pr : Prep K V)
    (st : PhaseState K) (p : Nat) : Option (PhaseState K) :=
  (ub (participants pr p st.cv) (phaseOptions opts pr st p)).map (phaseApply pr st p)

/-- The phase loop over the listed phase indices. -/
def runPhases (ub : UniformBuilder K) (opts : BuildOptions) (pr : Prep K V) :
    List Nat → PhaseState K → Option (PhaseState K)
  | [], st => some st
  | p :: rest, st =>
    match phaseStep ub opts pr st p with
    | none => none
    | some st2 => runPhases ub opts pr rest st2

/-- `CompressedMap::build`.  Besides the map it returns the per-phase query
functions (bundled inside the cores in the source) and the final `try_num`
written back into the options. -/
def build (ub : UniformBuilder K) (l : List (K × V)) (opts : BuildOptions) :
    Option (CompressedMap V × List (K → Nat) × Nat) :=
  match countsList l with
  | [] => none
  | [c] => some (⟨0, [(0, c.1)], [], []⟩, [], opts.try_num)
  | _ :: _ :: _ =>
    let pr : Prep K V := prep l
    match runPhases ub opts pr (List.range pr.nphases)
      { cv := List.replicate pr.scan.n_omo 0, saltAcc := [], cores := [],
        fs := [], tries := opts.try_num } with
    | none => none
    | some st =>
      some (⟨pr.plan, pr.resp, (st.saltAcc.drop 1).take (pr.nphases - 1), st.cores⟩,
            st.fs, st.tries)

end Build

/-! ## `CompressedMap::query` -/

section Query

variable {K V : Type}

/-- Outcome of `bsearch`: a unique response, ambiguity (`None` in the source,
the caller must supply more bits), or an index panic. -/
inductive BRes (V : Type) where
  | panic : BRes V
  | ambig : BRes V
  | found : V → BRes V
deriving DecidableEq, Repr

/-- `CompressedMap::bsearch`.  `partition_point` is rendered as the length of
the longest prefix satisfying the predicate (equal on the sorted tables the
source builds); the `- 1` underflow / out-of-bounds index on an empty prefix
is a panic. -/
def bsearchQ (rm : List (Locator × V)) (low high : Nat) : BRes V :=
  let pp := (rm.takeWhile (fun e => decide (e.1 ≤ low))).length
  if pp = 0 then BRes.panic
  else
    match rm[pp - 1]?, rm[pp]? with
    | some e, none => BRes.found e.2
    | some e, some e2 => if e2.1 > high then BRes.found e.2 else BRes.ambig
    | none, _ => BRes.panic

/-- The main phase walk of `query`, from the highest phase down, skipping the
phase the heuristic already queried (`phase + 2 = nphases`).  Returns `none`
for the `unreachable!` fall-through (and for a `bsearch` panic). -/
def queryLoop (rm : List (Locator × V)) (fs : List (K → Nat)) (nph : Nat) (k : K) :
    List (Nat × Nat) → Nat → Nat → Option V
  | [], _, _ => none
  | (p, h) :: rest, loc, kmask =>
    if p + 2 = nph then queryLoop rm fs nph k rest loc kmask
    else
      let tp := (fs.getD p (fun _ => 0)) k % U32
      let loc2 := loc ||| (tp <<< h) % U32
      let kmask2 := kmask ||| wneg32 (1 <<< h)
      match bsearchQ rm loc2 (loc2 ||| not32 kmask2) with
      | BRes.found v => some v
      | BRes.panic => none
      | BRes.ambig => queryLoop rm fs nph k rest loc2 kmask2

/-- `CompressedMap::query`.  The per-phase query functions `fs` accompany the
cores (the source reads them off `self.core[i]`).  `none` models a panic or
the `unreachable!` branch; the claims show it is never `none` on built maps. -/
def query (m : CompressedMap V) (fs : List (K → Nat)) (k : K) : Option V :=
  let nph := m.core.length
  if m.plan = 0 then (m.response_map[0]?).map (·.2)
  else
    let kmask0 := (m.plan - 1) &&& not32 m.plan
    let pairsDesc := ((List.range nph).zip (planBits m.plan)).reverse
    if 2 ≤ nph then
      let h1 := highBit m.plan
      let plan2 := m.plan ^^^ (1 <<< h1)
      let h2 := highBit plan2
      let tp := (fs.getD (nph - 2) (fun _ => 0)) k % U32
      let kmask1 := kmask0 ||| ((1 <<< h1) - (1 <<< h2))
      let loc1 := (tp <<< h2) % U32
      match bsearchQ m.response_map loc1 (loc1 ||| not32 kmask1) with
      | BRes.found v => some v
      | BRes.panic => none
      | BRes.ambig => queryLoop m.response_map fs nph k pairsDesc loc1 kmask1
    else
      queryLoop m.response_map fs nph k pairsDesc 0 kmask0

end Query

/-! ## Codec

Byte streams are `List Nat` with entries below 256.  The integer framing is
the bincode standard variable-length encoding.  Modelled from the spec:
`STD_BINCODE_CONFIG` lives in `uniform.rs`, the spec fixes "a bincode-compatible
variable-length integer encoding" (single byte below 251; markers 251/252/253
followed by 2/4/8 little-endian bytes). -/

section Codec

variable {V : Type} [DecidableEq V]

/-- `count` little-endian bytes of `v`. -/
def leBytes (count v : Nat) : List Nat := (List.range count).map (fun i => v / 256 ^ i % 256)

/-- Value of a little-endian byte list. -/
def leVal (bytes : List Nat) : Nat := bytes.foldr (fun b acc => b + 256 * acc) 0

/-- bincode varint encoding (shared by `u32` and `usize` values). -/
def encVarint (v : Nat) : List Nat :=
  if v < 251 then [v]
  else if v < 65536 then 251 :: leBytes 2 v
  else if v < U32 then 252 :: leBytes 4 v
  else 253 :: leBytes 8 v

/-- Split off the first `n` bytes; `none` on end of input. -/
def readN (n : Nat) (bs : List Nat) : Option (List Nat × List Nat) :=
  if n ≤ bs.length then some (bs.take n, bs.drop n) else none

/-- bincode varint decoding at `usize` width. -/
def decVarint64 (bs : List Nat) : Option (Nat × List Nat) :=
  match bs with
  | [] => none
  | 251 :: rest => (readN 2 rest).map (fun p => (leVal p.1, p.2))
  | 252 :: rest => (readN 4 rest).map (fun p => (leVal p.1, p.2))
  | 253 :: rest => (readN 8 rest).map (fun p => (leVal p.1, p.2))
  | b :: rest => if b < 251 then some (b, rest) else none

/-- bincode varint decoding at `u32` width (the 8-byte marker is invalid). -/
def decVarint32 (bs : List Nat) : Option (Nat × List Nat) :=
  match bs with
  | [] => none
  | 251 :: rest => (readN 2 rest).map (fun p => (leVal p.1, p.2))
  | 252 :: rest => (readN 4 rest).map (fun p => (leVal p.1, p.2))
  | b :: rest => if b < 251 then some (b, rest) else none

/-- `b"cnm1"`. -/
def MAGIC : List Nat := [99, 110, 109, 49]

/-- `delta.leading_zeros() + 1` on `u32`. -/
def logWidthByte (d : Nat) : Nat := (if d = 0 then 32 else 31 - highBit d) + 1

/-- The width deltas `response_map[i+1].0 - response_map[i].0`. -/
def respDeltas (rm : List (Locator × V)) : List Nat :=
  (rm.zip rm.tail).map (fun p => p.2.1 - p.1.1)

/-- `impl Encode for CompressedMap`: magic, log-width vector, responses,
first hash key (zeros when no phases), plan, raw salt, per-phase block counts,
raw blocks.  `none` models the `assert!` on an empty response map. -/
def encodeMap (encV : V → List Nat) (m : CompressedMap V) : Option (List Nat) :=
  if m.response_map.length = 0 then none
  else
    let logResp := (respDeltas m.response_map).map logWidthByte
    let hashKey := if m.core.length = 0 then List.replicate 16 0
      else (m.core.getD 0 default).hash_key
    some (MAGIC ++ (encVarint logResp.length ++ logResp)
      ++ (m.response_map.map (fun e => encV e.2)).flatten
      ++ hashKey ++ encVarint m.plan ++ m.salt
      ++ (m.core.map (fun c => encVarint c.nblocks)).flatten
      ++ (m.core.map (fun c => c.blocks)).flatten)

/-- Decode `n` responses with the value codec. -/
def decodeResponses (decV : List Nat → Option (V × List Nat)) :
    Nat → List Nat → Option (List V × List Nat)
  | 0, bs => some ([], bs)
  | n + 1, bs =>
    (decV bs).bind (fun p =>
      (decodeResponses decV n p.2).map (fun q => (p.1 :: q.1, q.2)))

/-- Rebuild the response map from the log widths: each entry must be in
`[1, 32]` and the running total must not overflow `u32` (`checked_add`). -/
def respMapLoop : List Nat → List V → Nat → Option (List (Locator × V))
  | _, [], _ => some []
  | [], r :: rs, total => (respMapLoop [] rs total).map (fun t => (total, r) :: t)
  | lg :: lgs, r :: rs, total =>
    if lg = 0 ∨ lg > 32 then none
    else
      let rr := 1 <<< (32 - lg)
      if total + rr > U32M then none
      else (respMapLoop lgs rs (total + rr)).map (fun t => (total, r) :: t)

/-- Decode the per-phase block counts, each at least 2. -/
def decodeNblocks : Nat → List Nat → Option (List Nat × List Nat)
  | 0, bs => some ([], bs)
  | n + 1, bs =>
    (decVarint64 bs).bind (fun p =>
      if p.1 < 2 then none
      else (decodeNblocks n p.2).map (fun q => (p.1 :: q.1, q.2)))

/-- The core-reading loop: per phase, the bit width comes from the plan,
the block bytes are taken verbatim (`checked_mul` guards the length), and the
hash key is chained through `choose_key` with the salt byte. -/
def decodeCores (bsz : Nat) (ck : List Nat → Nat → List Nat) (salt : List Nat) :
    List Nat → Nat → List Nat → Nat → List Nat → Option (List MapCore × List Nat)
  | [], _, _, _, bs => some ([], bs)
  | nb :: rest, curPlan, hashcur, phase, bs =>
    let nextPlan := curPlan &&& (curPlan - 1)
    let bpv := tz32 nextPlan - tz32 curPlan
    let mul1 := nb * bsz
    if mul1 > USIZE_MAX then none
    else if mul1 * bpv > USIZE_MAX then none
    else
      match readN (mul1 * bpv) bs with
      | none => none
      | some (blk, bs2) =>
        let hashnext := if phase < salt.length then ck hashcur (salt.getD phase 0) else hashcur
        (decodeCores bsz ck salt rest nextPlan hashnext (phase + 1) bs2).map
          (fun p => (⟨hashcur, bpv, nb, blk⟩ :: p.1, p.2))

/-- `impl BorrowDecode for CompressedMap`.  Parameters: the value codec, the
`choose_key` derivation (from `uniform.rs`, modelled from the spec as an
abstract deterministic function), and `BLOCKSIZE`.  Returns the map and the
unconsumed suffix. -/
def decodeMap (decV : List Nat → Option (V × List Nat))
    (ck : List Nat → Nat → List Nat) (bsz : Nat) (bytes : List Nat) :
    Option (CompressedMap V × List Nat) :=
  (readN 4 bytes).bind (fun mg =>
  if mg.1 ≠ MAGIC then none
  else (decVarint64 mg.2).bind (fun nlr =>
  (readN nlr.1 nlr.2).bind (fun logs =>
  (decodeResponses decV (nlr.1 + 1) logs.2).bind (fun resps =>
  (respMapLoop logs.1 resps.1 0).bind (fun rm =>
  (readN 16 resps.2).bind (fun hk =>
  (decVarint32 hk.2).bind (fun plan =>
  let nphases := popcount32 plan.1
  let lenSalt := max 1 nphases - 1
  (readN lenSalt plan.2).bind (fun salt =>
  (decodeNblocks nphases salt.2).bind (fun nbl =>
  if nphases > 0 ∧ nphases ≠ salt.1.length + 1 then none
  else (decodeCores bsz ck salt.1 nbl.1 plan.1 hk.1 0 nbl.2).map (fun cores =>
  (⟨plan.1, rm, salt.1, cores.1⟩, cores.2)))))))))))

/-- The post-I/O logic of `read_from_file`: decode the whole buffer and fail
if bytes are left over (`take_ownership` only changes the borrow status). -/
def readFromFileBytes (decV : List Nat → Option (V × List Nat))
    (ck : List Nat → Nat → List Nat) (bsz : Nat) (bytes : List Nat) :
    Option (CompressedMap V) :=
  match decodeMap decV ck bsz bytes with
  | none => none
  | some (m, rest) => if rest.length > 0 then none else some m

/-- The shape `decodeCores` expects of a core list: each phase's
`bits_per_value` is the gap between consecutive trailing-zero counts of the
successively cleared plan, the block geometry respects the `checked_mul`
guards, and hash keys chain by `choose_key` through the salt. -/
def coresMatch (bsz : Nat) (ck : List Nat → Nat → List Nat) (salt : List Nat) :
    List MapCore → Nat → Nat → List Nat → Prop
  | [], _, _, _ => True
  | c :: rest, curPlan, phase, hcur =>
    c.hash_key = hcur ∧
    c.bits_per_value = tz32 (curPlan &&& (curPlan - 1)) - tz32 curPlan ∧
    c.nblocks * bsz ≤ USIZE_MAX ∧
    c.nblocks * bsz * c.bits_per_value ≤ USIZE_MAX ∧
    c.blocks.length = c.nblocks * bsz * c.bits_per_value ∧
    coresMatch bsz ck salt rest (curPlan &&& (curPlan - 1)) (phase + 1)
      (if phase < salt.length then ck hcur (salt.getD phase 0) else hcur)

end Codec

/-! ## The collaborator contract and a concrete instance

The uniform builder is external (`uniform.rs` is not among the sources); the
spec fixes its interface: it retrieves, for every staged input key, the
`bits_per_value`-bit slice of the target locator at `shift`, reports the
attempt count, and produces a block structure whose hash key derives from the
parent key by `choose_key`. -/

section Contract

variable {K : Type}

/-- Modelled from the spec: the contract of the uniform static-function
builder (`CompressedRandomMap::build` / `query_hash` / `try_query`) and the
block geometry of `MapCore`, relative to the abstract `choose_key` `ck` and
`BLOCKSIZE` `bsz`. -/
structure UBContract (ub : UniformBuilder K) (ck : List Nat → Nat → List Nat)
    (bsz : Nat) : Prop where
  bounded : ∀ pairs opts r, ub pairs opts = some r →
    ∀ x, r.qfun x < 2 ^ (opts.bits_per_value.getD 0)
  correct : ∀ pairs opts r, ub pairs opts = some r → (pairs.map (·.1)).Nodup →
    ∀ kt ∈ pairs, r.qfun kt.1 = kt.2 >>> opts.shift % 2 ^ (opts.bits_per_value.getD 0)
  bits : ∀ pairs opts r, ub pairs opts = some r →
    r.core.bits_per_value = opts.bits_per_value.getD 0
  hashk : ∀ pairs opts r parent, ub pairs opts = some r → opts.key_gen = some parent →
    r.core.hash_key = ck parent r.tnum
  tnum_le : ∀ pairs opts r, ub pairs opts = some r → r.tnum ≤ opts.max_tries
  nblocks2 : ∀ pairs opts r, ub pairs opts = some r → 2 ≤ r.core.nblocks
  nblocks_le : ∀ pairs opts r, ub pairs opts = some r → opts.bits_per_value.getD 0 ≤ 32 →
    r.core.nblocks * bsz ≤ USIZE_MAX ∧
    r.core.nblocks * bsz * opts.bits_per_value.getD 0 ≤ USIZE_MAX
  blocklen : ∀ pairs opts r, ub pairs opts = some r →
    r.core.blocks.length = r.core.nblocks * bsz * opts.bits_per_value.getD 0
  hklen : ∀ pairs opts r, ub pairs opts = some r → r.core.hash_key.length = 16

/-- Modelled from the spec: a concrete instance of the uniform builder used
to exercise the development on closed inputs (lookup-table retrieval; one
attempt; two blocks). -/
def ubModel [DecidableEq K] (bsz : Nat) (ck : List Nat → Nat → List Nat) :
    UniformBuilder K :=
  fun pairs opts =>
    let b := opts.bits_per_value.getD 0
    some { core := { hash_key := ck (opts.key_gen.getD (List.replicate 16 0)) 0,
                     bits_per_value := b, nblocks := 2,
                     blocks := List.replicate (2 * bsz * b) 0 },
           qfun := fun k =>
             ((pairs.find? (fun p => decide (p.1 = k))).map
               (fun p => p.2 >>> opts.shift)).getD 0 % 2 ^ b,
           tnum := 0 }

/-- A concrete `choose_key` instance (any deterministic 16-byte derivation
satisfies the development; the real one lives in `uniform.rs`). -/
def ckModel : List Nat → Nat → List Nat := fun parent s =>
  (parent.map (fun b => (b + s) % 256)).take 16 ++
    List.replicate (16 - parent.length) (s % 256)

/-- Default build options fixture for closed instances. -/
def opts0 : BuildOptions :=
  { key_gen := some (List.replicate 16 0), max_tries := 255, try_num := 0,
    bits_per_value := none, shift := 0, max_threads := none }

end Contract

/-! ## Proof-support definitions (projections of the loops above) -/

section Support

variable {V : Type}

/-- Widths of an item list. -/
def widthsOf (items : List (V × Nat × Nat)) : List Nat := items.map (·.2.1)

/-- Widths of an interval vector (`hi + 1 - lo`). -/
def ivWidths (iv : List (Nat × Locator × Locator)) : List Nat :=
  iv.map (fun e => e.2.2 + 1 - e.2.1)

/-- The response-map entries produced by `planFold` from a running total. -/
def respList : List (V × Nat × Nat) → Nat → List (Locator × V)
  | [], _ => []
  | (k, w, _) :: rest, t => (t, k) :: respList rest ((t + w) % U32)

/-- The value-number entries produced by `planFold`. -/
def vmList : List (V × Nat × Nat) → Nat → List (V × Nat)
  | [], _ => []
  | (k, _, _) :: rest, c => (k, c) :: vmList rest (c + 1)

/-- The interval entries produced by `planFold`. -/
def ivList : List (V × Nat × Nat) → Nat → List (Nat × Locator × Locator)
  | [], _ => []
  | (_, w, cnt) :: rest, t => (cnt, t, (t + (w - 1)) % U32) :: ivList rest ((t + w) % U32)

/-- The plan bit contributed by one width. -/
def bitOf (w : Nat) : Nat := if w &&& (w - 1) = 0 then w else 1 <<< highBit w

/-- The plan accumulation of `planFold`. -/
def planAcc : List (V × Nat × Nat) → Nat → Nat
  | [], p => p
  | (_, w, _) :: rest, p => planAcc rest (p ||| bitOf w)

/-- Boolean-sortedness with respect to a comparator. -/
abbrev SortedB {α : Type} (le : α → α → Bool) (l : List α) : Prop :=
  List.Pairwise (fun a b => le a b = true) l

/-- The item list entering the fit sort (floor powers of two of the ideal
widths). -/
def items0Of (counts : List (V × Nat)) : List (V × Nat × Nat) :=
  counts.map (fun x => (x.1, floorPow2 (ratio32 x.2 ((counts.map (·.2)).sum)), x.2))

/-- The width shortfall handed to the expansion loop. -/
def rem0Of (counts : List (V × Nat)) : Nat :=
  wneg32 ((widthsOf (items0Of counts)).sum % U32)

/-- The canonically sorted item list from which `planFold` reads off the
response map, intervals and plan. -/
def items3Of [LinearOrder V] (counts : List (V × Nat)) : List (V × Nat × Nat) :=
  stSort canonLE (expandItems (rem0Of counts) (stSort fitLE (items0Of counts)))

/-- The phase masks described by an ascending bit list: each bit owns the
range up to the next bit, the top bit owns the range up to bit 31. -/
def bitMasks : List Nat → List Nat
  | [] => []
  | [a] => [2 ^ 32 - 2 ^ a]
  | a :: b :: rest => (2 ^ b - 2 ^ a) :: bitMasks (b :: rest)

/-- A query outcome that lands in the response table: `query` returned a value
and that value is one of the stored responses.  `false` covers the panic and
`unreachable!` outcomes (`none`). -/
def inResp [DecidableEq V] (m : CompressedMap V) (o : Option V) : Bool :=
  match o with
  | none => false
  | some v => m.response_map.any (fun e => decide (e.2 = v))

/-- The width invariants of the canonically sorted item list, for counts that
are positive, at least two, and of total at most `2^32`. -/
structure WidthFacts [LinearOrder V] (counts : List (V × Nat)) : Prop where
  len : (items3Of counts).length = counts.length
  w_lb : ∀ it ∈ items3Of counts, 1 ≤ it.2.1
  w_ub : ∀ it ∈ items3Of counts, it.2.1 < U32
  w_sum : (widthsOf (items3Of counts)).sum = U32
  w_np2 : (widthsOf (items3Of counts)).countP (fun w => !(isPow2 w)) ≤ 1
  sorted : SortedB canonLE (items3Of counts)
  kc_perm : ((items3Of counts).map (fun it => (it.1, it.2.2))).Perm counts

end Support

section ContractLemmas

variable {K : Type}

/-- Association-list lookup by key on a key-Nodup pair list finds the pair. -/
theorem find?_fst_nodup {K A : Type} [DecidableEq K] :
    ∀ (pairs : List (K × A)) (kt : K × A), (pairs.map (·.1)).Nodup → kt ∈ pairs →
      pairs.find? (fun p => decide (p.1 = kt.1)) = some kt := by
  intro pairs
  induction pairs with
  | nil => intro kt _ h; cases h
  | cons p rest ih =>
    intro kt hnd hmem
    simp only [List.map_cons, List.nodup_cons] at hnd
    rcases List.mem_cons.mp hmem with h | h
    · subst h
      simp [List.find?_cons]
    · have hne : p.1 ≠ kt.1 := by
        intro he
        exact hnd.1 (he ▸ List.mem_map_of_mem (·.1) h)
      rw [List.find?_cons]
      rw [show (decide (p.1 = kt.1)) = false from by simpa using hne]
      exact ih kt hnd.2 h

theorem ckModel_len : ∀ x s, (ckModel x s).length = 16 := by
  intro x s
  simp [ckModel]
  omega

/-- `ubModel` satisfies the collaborator contract whenever `ck` produces
16-byte keys and the block size is modest. -/
theorem ubModel_contract [DecidableEq K] (bsz : Nat)
    (ck : List Nat → Nat → List Nat) (hck : ∀ x s, (ck x s).length = 16)
    (hbsz : bsz ≤ 2 ^ 32) :
    UBContract (K := K) (ubModel bsz ck) ck bsz := by
  constructor
  case bounded =>
    intro pairs opts r h x
    cases h
    exact Nat.mod_lt _ (Nat.pos_pow_of_pos _ (by omega))
  case correct =>
    intro pairs opts r h hnd kt hkt
    cases h
    simp only [ubModel]
    rw [find?_fst_nodup pairs kt hnd hkt]
    rfl
  case bits => intro pairs opts r h; cases h; rfl
  case hashk => intro pairs opts r parent h hp; cases h; simp [hp]
  case tnum_le => intro pairs opts r h; cases h; exact Nat.zero_le _
  case nblocks2 => intro pairs opts r h; cases h; exact le_refl 2
  case nblocks_le =>
    intro pairs opts r h hb
    cases h
    constructor
    · calc 2 * bsz ≤ 2 * 2 ^ 32 := by omega
        _ ≤ USIZE_MAX := by norm_num [USIZE_MAX]
    · calc 2 * bsz * opts.bits_per_value.getD 0 ≤ 2 * 2 ^ 32 * 32 := by
            apply Nat.mul_le_mul (by omega) hb
        _ ≤ USIZE_MAX := by norm_num [USIZE_MAX]
  case blocklen => intro pairs opts r h; cases h; simp [ubModel]
  case hklen => intro pairs opts r h; cases h; exact hck _ _

end ContractLemmas

/-! ## Bit-level facts -/

section BitFacts

theorem singleton_of_all_eq {l : List Nat} {j : Nat} (hne : l ≠ [])
    (hall : ∀ a ∈ l, a = j) (hnd : l.Nodup) : l = [j] := by
  cases l with
  | nil => exact absurd rfl hne
  | cons a rest =>
    have ha : a = j := hall a (by simp)
    cases rest with
    | nil => rw [ha]
    | cons b rest2 =>
      have hb : b = j := hall b (by simp)
      rw [List.nodup_cons] at hnd
      exact absurd (by simp [ha, hb]) hnd.1

theorem testBit_ge32 {x i : Nat} (hx : x < U32) (hi : 32 ≤ i) : x.testBit i = false := by
  apply Nat.testBit_eq_false_of_lt
  calc x < U32 := hx
    _ = 2 ^ 32 := rfl
    _ ≤ 2 ^ i := Nat.pow_le_pow_right (by omega) hi

theorem testBit_log2 {x : Nat} (h0 : x ≠ 0) : x.testBit (Nat.log2 x) = true := by
  have h1 := Nat.log2_self_le h0
  have h2 := Nat.lt_log2_self (n := x)
  rw [Nat.testBit_to_div_mod]
  have hdiv : x / 2 ^ Nat.log2 x = 1 := by
    have hlo : 1 ≤ x / 2 ^ Nat.log2 x :=
      (Nat.le_div_iff_mul_le (Nat.pos_pow_of_pos _ (by omega))).mpr (by omega)
    have hhi : x / 2 ^ Nat.log2 x < 2 := by
      apply Nat.div_lt_of_lt_mul
      rw [Nat.pow_succ] at h2
      omega
    omega
  simp [hdiv]

theorem log2_lt_32 {x : Nat} (h0 : x ≠ 0) (hU : x < U32) : Nat.log2 x < 32 :=
  (Nat.log2_lt h0).mpr hU

theorem sorted_getLast?_max {l : List Nat} {b : Nat} (hs : l.Pairwise (· < ·))
    (hb : b ∈ l) (hub : ∀ a ∈ l, a ≤ b) : l.getLast? = some b := by
  induction l with
  | nil => cases hb
  | cons a rest ih =>
    rw [List.pairwise_cons] at hs
    cases rest with
    | nil =>
      have hba : b = a := by simpa using hb
      subst hba
      simp
    | cons c rest2 =>
      rw [List.getLast?_cons_cons]
      apply ih hs.2
      · rcases List.mem_cons.mp hb with h | h
        · exfalso
          have hc := hs.1 c (by simp)
          have := hub c (by simp)
          omega
        · exact h
      · exact fun a ha => hub a (by simp [ha])

theorem highBit_eq_log2 {x : Nat} (h0 : x ≠ 0) (hU : x < U32) :
    highBit x = Nat.log2 x := by
  unfold highBit
  have hmem : Nat.log2 x ∈ (List.range 32).filter (fun i => x.testBit i) := by
    rw [List.mem_filter, List.mem_range]
    exact ⟨log2_lt_32 h0 hU, testBit_log2 h0⟩
  rw [sorted_getLast?_max ((List.pairwise_lt_range 32).filter _) hmem ?ub]
  · rfl
  case ub =>
    intro a ha
    rw [List.mem_filter] at ha
    have h2a : 2 ^ a ≤ x := Nat.testBit_implies_ge ha.2
    exact (Nat.le_log2 h0).mpr h2a

theorem highBit_two_pow {j : Nat} (hj : j < 32) : highBit (2 ^ j) = j := by
  have h0 : (2 : Nat) ^ j ≠ 0 := (Nat.pos_pow_of_pos _ (by omega)).ne'
  have hU : (2 : Nat) ^ j < U32 := by
    show 2 ^ j < 2 ^ 32
    exact Nat.pow_lt_pow_right (by omega) hj
  rw [highBit_eq_log2 h0 hU, Nat.log2_two_pow]

theorem floorPow2_pos (x : Nat) : 1 ≤ floorPow2 x := by
  unfold floorPow2
  split
  · omega
  · rw [Nat.shiftLeft_eq]
    simpa using Nat.pos_pow_of_pos (highBit x) (by omega)

theorem floorPow2_eq_pow {x : Nat} (h0 : x ≠ 0) (hU : x < U32) :
    floorPow2 x = 2 ^ Nat.log2 x := by
  unfold floorPow2
  rw [if_neg h0, Nat.shiftLeft_eq, highBit_eq_log2 h0 hU, one_mul]

theorem floorPow2_le {x : Nat} (h0 : x ≠ 0) (hU : x < U32) : floorPow2 x ≤ x := by
  rw [floorPow2_eq_pow h0 hU]
  exact Nat.log2_self_le h0

theorem floorPow2_pow2 {x : Nat} (hU : x < U32) : ∃ j, j < 32 ∧ floorPow2 x = 2 ^ j := by
  by_cases h0 : x = 0
  · exact ⟨0, by omega, by simp [h0, floorPow2]⟩
  · exact ⟨Nat.log2 x, log2_lt_32 h0 hU, floorPow2_eq_pow h0 hU⟩

theorem two_mul_floorPow2 {x : Nat} (hU : x < U32) : x + 1 ≤ 2 * floorPow2 x := by
  by_cases h0 : x = 0
  · simp [h0, floorPow2]
  · rw [floorPow2_eq_pow h0 hU]
    have h2 := Nat.lt_log2_self (n := x)
    rw [Nat.pow_succ] at h2
    omega

theorem isPow2_two_pow (j : Nat) : isPow2 (2 ^ j) = true := by
  unfold isPow2
  rw [Bool.and_eq_true, decide_eq_true_eq, decide_eq_true_eq]
  constructor
  · exact (Nat.pos_pow_of_pos _ (by omega)).ne'
  · apply Nat.eq_of_testBit_eq
    intro i
    rw [Nat.testBit_land, Nat.testBit_two_pow, Nat.testBit_two_pow_sub_one, Nat.zero_testBit]
    rcases Nat.lt_trichotomy i j with h | h | h
    · simp [show ¬ j = i from by omega]
    · simp [h]
    · simp [show ¬ j = i from by omega]

theorem isPow2_iff {w : Nat} : isPow2 w = true ↔ ∃ j, w = 2 ^ j := by
  constructor
  · intro h
    unfold isPow2 at h
    rw [Bool.and_eq_true, decide_eq_true_eq, decide_eq_true_eq] at h
    obtain ⟨h0, hand⟩ := h
    refine ⟨Nat.log2 w, ?_⟩
    by_contra hne
    have h1 := Nat.log2_self_le h0
    have h2 := Nat.lt_log2_self (n := w)
    have hgt : 2 ^ Nat.log2 w < w := by omega
    have hb1 : w.testBit (Nat.log2 w) = true := testBit_log2 h0
    have hb2 : (w - 1).testBit (Nat.log2 w) = true := by
      rw [Nat.testBit_to_div_mod]
      have : (w - 1) / 2 ^ Nat.log2 w = 1 := by
        have hlo : 1 ≤ (w - 1) / 2 ^ Nat.log2 w :=
          (Nat.le_div_iff_mul_le (Nat.pos_pow_of_pos _ (by omega))).mpr (by omega)
        have hhi : (w - 1) / 2 ^ Nat.log2 w < 2 := Nat.div_lt_of_lt_mul (by
          rw [Nat.pow_succ] at h2
          omega)
        omega
      simp [this]
    have : (w &&& (w - 1)).testBit (Nat.log2 w) = true := by
      rw [Nat.testBit_land, hb1, hb2]
      rfl
    rw [hand] at this
    rw [Nat.zero_testBit] at this
    exact Bool.noConfusion this
  · rintro ⟨j, rfl⟩
    exact isPow2_two_pow j

theorem filter_testBit_two_pow {j : Nat} (hj : j < 32) :
    (List.range 32).filter (fun i => (2 ^ j).testBit i) = [j] := by
  apply singleton_of_all_eq
  · intro hnil
    have : j ∈ (List.range 32).filter (fun i => (2 ^ j).testBit i) := by
      rw [List.mem_filter, List.mem_range]
      refine ⟨hj, ?_⟩
      rw [Nat.testBit_two_pow]
      simp
    rw [hnil] at this
    cases this
  · intro a ha
    rw [List.mem_filter, Nat.testBit_two_pow] at ha
    exact (decide_eq_true_eq.mp ha.2).symm
  · exact (List.nodup_range 32).filter _

theorem popcount32_two_pow {j : Nat} (hj : j < 32) : popcount32 (2 ^ j) = 1 := by
  unfold popcount32
  rw [filter_testBit_two_pow hj]
  rfl

theorem tz32_two_pow {j : Nat} (hj : j < 32) : tz32 (2 ^ j) = j := by
  unfold tz32
  rw [filter_testBit_two_pow hj]
  rfl

theorem popcount32_pos {w : Nat} (h0 : w ≠ 0) (hU : w < U32) : 1 ≤ popcount32 w := by
  unfold popcount32
  have hmem : Nat.log2 w ∈ (List.range 32).filter (fun i => w.testBit i) := by
    rw [List.mem_filter, List.mem_range]
    exact ⟨log2_lt_32 h0 hU, testBit_log2 h0⟩
  exact List.length_pos.mpr (fun hnil => by rw [hnil] at hmem; cases hmem)

theorem popcount32_eq_one_iff {w : Nat} (hU : w < U32) :
    popcount32 w = 1 ↔ isPow2 w = true := by
  constructor
  · intro h
    unfold popcount32 at h
    rcases hL : (List.range 32).filter (fun i => w.testBit i) with _ | ⟨j, rest⟩
    · rw [hL] at h
      cases h
    · rw [hL] at h
      simp only [List.length_cons] at h
      have hrest : rest = [] := List.length_eq_zero.mp (by omega)
      subst hrest
      have hj32 : j < 32 ∧ w.testBit j = true := by
        have hm : j ∈ (List.range 32).filter (fun i => w.testBit i) := by rw [hL]; simp
        rw [List.mem_filter, List.mem_range] at hm
        exact ⟨hm.1, hm.2⟩
      rw [isPow2_iff]
      refine ⟨j, Nat.eq_of_testBit_eq (fun i => ?_)⟩
      rw [Nat.testBit_two_pow]
      by_cases hi : i < 32
      · by_cases hij : i = j
        · subst hij
          rw [hj32.2]
          simp
        · have hw : w.testBit i = false := by
            rcases hb : w.testBit i with _ | _
            · rfl
            · exfalso
              have hm : i ∈ (List.range 32).filter (fun i => w.testBit i) := by
                rw [List.mem_filter, List.mem_range]
                exact ⟨hi, hb⟩
              rw [hL, List.mem_singleton] at hm
              exact hij hm
          rw [hw]
          simp [show ¬ j = i from fun he => hij he.symm]
      · rw [testBit_ge32 hU (by omega)]
        simp [show ¬ j = i from by omega]
  · intro h
    obtain ⟨j, rfl⟩ := isPow2_iff.mp h
    have hj : j < 32 := by
      by_contra hge
      have hle : (2 : Nat) ^ 32 ≤ 2 ^ j := Nat.pow_le_pow_right (by omega) (by omega)
      exact absurd hU (by show ¬ 2 ^ j < 2 ^ 32; omega)
    exact popcount32_two_pow hj

end BitFacts

/-! ## Stable-sort lemmas -/

section SortLemmas

variable {α : Type} {le : α → α → Bool}

theorem stInsert_perm (a : α) : ∀ l : List α, (stInsert le a l).Perm (a :: l) := by
  intro l
  induction l with
  | nil => exact List.Perm.refl _
  | cons b bs ih =>
    unfold stInsert
    split
    · exact (ih.cons b).trans (List.Perm.swap a b bs)
    · exact List.Perm.refl _

theorem stInsert_mem {a x : α} {l : List α} (h : x ∈ stInsert le a l) :
    x = a ∨ x ∈ l := by
  have := (stInsert_perm a l).mem_iff.mp h
  simpa using this

theorem stSort_perm : ∀ l : List α, (stSort le l).Perm l := by
  have aux : ∀ (l acc : List α),
      (l.foldl (fun acc a => stInsert le a acc) acc).Perm (acc ++ l) := by
    intro l
    induction l with
    | nil => intro acc; simp
    | cons a rest ih =>
      intro acc
      rw [List.foldl_cons]
      refine (ih (stInsert le a acc)).trans ?_
      have h1 : (stInsert le a acc ++ rest).Perm ((a :: acc) ++ rest) :=
        (stInsert_perm a acc).append_right rest
      refine h1.trans ?_
      simpa using List.perm_middle.symm
  intro l
  simpa using aux l []

theorem stInsert_sorted (htr : ∀ a b c, le a b = true → le b c = true → le a c = true)
    (hto : ∀ a b, le a b = true ∨ le b a = true) (a : α) :
    ∀ l : List α, List.Pairwise (fun a b => le a b = true) l →
      List.Pairwise (fun a b => le a b = true) (stInsert le a l) := by
  intro l
  induction l with
  | nil => intro _; exact List.pairwise_singleton _ _
  | cons b bs ih =>
    intro hs
    rw [List.pairwise_cons] at hs
    unfold stInsert
    split
    case isTrue hba =>
      rw [List.pairwise_cons]
      constructor
      · intro y hy
        rcases stInsert_mem hy with h | h
        · rw [h]; exact hba
        · exact hs.1 y h
      · exact ih hs.2
    case isFalse hba =>
      have hab : le a b = true := by
        rcases hto a b with h | h
        · exact h
        · exact absurd h hba
      rw [List.pairwise_cons]
      constructor
      · intro y hy
        rcases List.mem_cons.mp hy with h | h
        · rw [h]; exact hab
        · exact htr a b y hab (hs.1 y h)
      · rw [List.pairwise_cons]
        exact ⟨hs.1, hs.2⟩

theorem stSort_sorted (htr : ∀ a b c, le a b = true → le b c = true → le a c = true)
    (hto : ∀ a b, le a b = true ∨ le b a = true) (l : List α) :
    List.Pairwise (fun a b => le a b = true) (stSort le l) := by
  have aux : ∀ (l acc : List α), List.Pairwise (fun a b => le a b = true) acc →
      List.Pairwise (fun a b => le a b = true) (l.foldl (fun acc a => stInsert le a acc) acc) := by
    intro l
    induction l with
    | nil => intro acc h; exact h
    | cons a rest ih =>
      intro acc h
      rw [List.foldl_cons]
      exact ih _ (stInsert_sorted htr hto a acc h)
  exact aux l [] List.Pairwise.nil

end SortLemmas

/-! ## Expansion-loop lemmas -/

section ExpandLemmas

variable {V : Type}

theorem expandItems_zero : ∀ items : List (V × Nat × Nat), expandItems 0 items = items := by
  intro items
  cases items with
  | nil => rfl
  | cons it rest =>
    obtain ⟨k, w, c⟩ := it
    simp [expandItems]

theorem expandItems_length : ∀ (rem : Nat) (items : List (V × Nat × Nat)),
    (expandItems rem items).length = items.length := by
  intro rem items
  induction items generalizing rem with
  | nil => rfl
  | cons it rest ih =>
    obtain ⟨k, w, c⟩ := it
    unfold expandItems
    split
    · rfl
    · simpa using ih _

theorem expandItems_keys : ∀ (rem : Nat) (items : List (V × Nat × Nat)),
    (expandItems rem items).map (·.1) = items.map (·.1) := by
  intro rem items
  induction items generalizing rem with
  | nil => rfl
  | cons it rest ih =>
    obtain ⟨k, w, c⟩ := it
    unfold expandItems
    split
    · rfl
    · simpa using ih _

theorem expandItems_counts : ∀ (rem : Nat) (items : List (V × Nat × Nat)),
    (expandItems rem items).map (·.2.2) = items.map (·.2.2) := by
  intro rem items
  induction items generalizing rem with
  | nil => rfl
  | cons it rest ih =>
    obtain ⟨k, w, c⟩ := it
    unfold expandItems
    split
    · rfl
    · simpa using ih _

theorem expandItems_sum : ∀ (rem : Nat) (items : List (V × Nat × Nat)),
    (∀ it ∈ items, rem + it.2.1 < U32) → rem ≤ (widthsOf items).sum →
    (widthsOf (expandItems rem items)).sum = (widthsOf items).sum + rem := by
  intro rem items
  induction items generalizing rem with
  | nil =>
    intro _ hle
    rw [show expandItems rem ([] : List (V × Nat × Nat)) = [] from rfl]
    simp only [widthsOf, List.map_nil, List.sum_nil] at hle ⊢
    omega
  | cons it rest ih =>
    intro hinv hle
    obtain ⟨k, w, c⟩ := it
    unfold expandItems
    split
    case isTrue h0 => subst h0; simp
    case isFalse h0 =>
      have hw : rem + w < U32 := hinv (k, w, c) (by simp)
      have hmod : (w + min rem w) % U32 = w + min rem w :=
        Nat.mod_eq_of_lt (by omega)
      simp only [widthsOf, List.map_cons, List.sum_cons] at hle ⊢
      rw [hmod]
      have hrec := ih (rem - min rem w) (fun it hit => by
        have := hinv it (by simp [hit])
        omega) (by simp only [widthsOf]; omega)
      simp only [widthsOf] at hrec
      rw [hrec]
      omega

theorem countP_eq_zero_of_all {l : List Nat} {p : Nat → Bool}
    (h : ∀ w ∈ l, p w = false) : l.countP p = 0 := by
  induction l with
  | nil => rfl
  | cons a rest ih =>
    rw [List.countP_cons, h a (by simp), ih (fun w hw => h w (by simp [hw]))]
    simp

theorem expandItems_pow2_count : ∀ (rem : Nat) (items : List (V × Nat × Nat)),
    (∀ it ∈ items, rem + it.2.1 < U32) →
    (∀ w ∈ widthsOf items, isPow2 w = true) →
    (widthsOf (expandItems rem items)).countP (fun w => !(isPow2 w)) ≤ 1 := by
  intro rem items
  induction items generalizing rem with
  | nil =>
    intro _ _
    rw [show expandItems rem ([] : List (V × Nat × Nat)) = [] from rfl]
    simp [widthsOf]
  | cons it rest ih =>
    intro hinv hall
    obtain ⟨k, w, c⟩ := it
    unfold expandItems
    split
    case isTrue h0 =>
      rw [countP_eq_zero_of_all (fun w hw => by rw [hall w hw]; rfl)]
      omega
    case isFalse h0 =>
      have hw : rem + w < U32 := hinv (k, w, c) (by simp)
      have hmod : (w + min rem w) % U32 = w + min rem w :=
        Nat.mod_eq_of_lt (by omega)
      simp only [widthsOf, List.map_cons, List.countP_cons]
      rcases Nat.le_total w rem with hcase | hcase
      · have he : min rem w = w := by omega
        rw [hmod, he]
        have hp2 : isPow2 (w + w) = true := by
          obtain ⟨j, hj⟩ := isPow2_iff.mp (hall w (by simp [widthsOf]))
          rw [isPow2_iff]
          exact ⟨j + 1, by rw [hj]; ring⟩
        rw [hp2]
        have := ih (rem - w) (fun it hit => by
          have := hinv it (by simp [hit])
          omega) (fun x hx => hall x (by simp [widthsOf] at hx ⊢; right; exact hx))
        simpa [widthsOf] using this
      · have he : min rem w = rem := by omega
        have hrem0 : rem - min rem w = 0 := by omega
        rw [hrem0, expandItems_zero]
        rw [countP_eq_zero_of_all (fun x hx => by
          rw [hall x (by simp [widthsOf] at hx ⊢; right; exact hx)]
          rfl)]
        split <;> omega

theorem expandItems_width_lb : ∀ (rem : Nat) (items : List (V × Nat × Nat)),
    (∀ it ∈ items, rem + it.2.1 < U32) → (∀ it ∈ items, 1 ≤ it.2.1) →
    ∀ it ∈ expandItems rem items, 1 ≤ it.2.1 := by
  intro rem items
  induction items generalizing rem with
  | nil => intro _ _ it hit; cases hit
  | cons hd rest ih =>
    intro hinv hlb it hit
    obtain ⟨k, w, c⟩ := hd
    unfold expandItems at hit
    split at hit
    · exact hlb it hit
    · rcases List.mem_cons.mp hit with h | h
      · have hw : rem + w < U32 := hinv (k, w, c) (by simp)
        have h1 : 1 ≤ w := hlb (k, w, c) (by simp)
        rw [h]
        simp only
        rw [Nat.mod_eq_of_lt (by omega)]
        omega
      · exact ih _ (fun x hx => by have := hinv x (by simp [hx]); omega)
          (fun x hx => hlb x (by simp [hx])) it h

theorem expandItems_width_ub : ∀ (rem : Nat) (items : List (V × Nat × Nat)),
    (∀ it ∈ items, it.2.1 < U32) →
    ∀ it ∈ expandItems rem items, it.2.1 < U32 := by
  intro rem items
  induction items generalizing rem with
  | nil => intro _ it hit; cases hit
  | cons hd rest ih =>
    intro hub it hit
    obtain ⟨k, w, c⟩ := hd
    unfold expandItems at hit
    split at hit
    · exact hub it hit
    · rcases List.mem_cons.mp hit with h | h
      · rw [h]
        simp only
        exact Nat.mod_lt _ (by norm_num [U32])
      · exact ih _ (fun x hx => hub x (by simp [hx])) it h

theorem expandItems_kc : ∀ (rem : Nat) (items : List (V × Nat × Nat)),
    (expandItems rem items).map (fun it => (it.1, it.2.2))
      = items.map (fun it => (it.1, it.2.2)) := by
  intro rem items
  induction items generalizing rem with
  | nil => rfl
  | cons it rest ih =>
    obtain ⟨k, w, c⟩ := it
    unfold expandItems
    split
    · rfl
    · simpa using ih _

end ExpandLemmas

/-! ## `formulate_plan` pipeline facts -/

section PlanLemmas

variable {V : Type} [LinearOrder V]

theorem planFold_eq : ∀ (items : List (V × Nat × Nat)) (t p c : Nat),
    planFold items t p c = (respList items t, vmList items c, ivList items t, planAcc items p) := by
  intro items
  induction items with
  | nil => intro t p c; rfl
  | cons it rest ih =>
    intro t p c
    obtain ⟨k, w, cnt⟩ := it
    unfold planFold
    simp only [ih]
    by_cases hw : w &&& (w - 1) = 0
    · simp only [if_pos hw, respList, vmList, ivList, planAcc, bitOf]
    · simp only [if_neg hw, respList, vmList, ivList, planAcc, bitOf]

theorem formulatePlan_eq (counts : List (V × Nat)) (h : 2 ≤ counts.length) :
    formulatePlan counts = (planAcc (items3Of counts) 0, vmList (items3Of counts) 0,
      ivList (items3Of counts) 0, respList (items3Of counts) 0) := by
  unfold formulatePlan
  rw [if_neg (by omega)]
  simp only [items3Of, rem0Of, items0Of, widthsOf, planFold_eq]

theorem length_le_sum : ∀ l : List Nat, (∀ x ∈ l, 1 ≤ x) → l.length ≤ l.sum := by
  intro l
  induction l with
  | nil => intro _; simp
  | cons a rest ih =>
    intro h
    have ha := h a (by simp)
    have := ih (fun x hx => h x (by simp [hx]))
    simp only [List.length_cons, List.sum_cons]
    omega

theorem mem_add_length_le_sum : ∀ (l : List Nat), (∀ x ∈ l, 1 ≤ x) →
    ∀ x ∈ l, x + (l.length - 1) ≤ l.sum := by
  intro l hall x hx
  obtain ⟨l1, l2, rfl⟩ := List.append_of_mem hx
  have h1 : l1.length ≤ l1.sum := length_le_sum l1 (fun y hy => hall y (by simp [hy]))
  have h2 : l2.length ≤ l2.sum := length_le_sum l2 (fun y hy => hall y (by simp [hy]))
  simp only [List.sum_append, List.length_append, List.sum_cons, List.length_cons]
  omega

theorem sum_mul_div_le : ∀ (cs : List Nat) (d M : Nat),
    d * ((cs.map (fun c => c * M / d)).sum) ≤ cs.sum * M := by
  intro cs d M
  induction cs with
  | nil => simp
  | cons c rest ih =>
    simp only [List.map_cons, List.sum_cons, Nat.mul_add, Nat.add_mul]
    have h1 : d * (c * M / d) ≤ c * M := by
      rcases Nat.eq_zero_or_pos d with h | h
      · simp [h]
      · calc d * (c * M / d) = (c * M / d) * d := by ring
          _ ≤ c * M := Nat.div_mul_le_self _ _
    omega

theorem sum_mul_div_ge : ∀ (cs : List Nat) (d M : Nat), 0 < d →
    cs.sum * M + cs.length ≤ d * ((cs.map (fun c => c * M / d)).sum + cs.length) := by
  intro cs d M hd
  induction cs with
  | nil => simp
  | cons c rest ih =>
    simp only [List.map_cons, List.sum_cons, List.length_cons, Nat.mul_add, Nat.add_mul,
      Nat.mul_one]
    have h1 : c * M + 1 ≤ d * (c * M / d) + d := by
      have hdm := Nat.div_add_mod (c * M) d
      have h2 : c * M % d < d := Nat.mod_lt _ hd
      omega
    have h3 := ih
    simp only [Nat.mul_add] at h3
    omega

/-- Lower bound of every ideal width ratio (under positive counts with total
at most `2^32`): at least 1 and below `2^32`, with the truncation vanishing. -/
theorem ratio32_facts {c total : Nat} (hc : 1 ≤ c) (hct : c < total) (ht : total ≤ U32) :
    ratio32 c total = c * U32 / total ∧ 1 ≤ ratio32 c total ∧ c * U32 / total < U32 := by
  have htp : 0 < total := by omega
  have hlt : c * U32 / total < U32 := by
    apply Nat.div_lt_of_lt_mul
    have hU : 0 < U32 := by norm_num [U32]
    calc c * U32 < total * U32 := by
          exact Nat.mul_lt_mul_of_lt_of_le hct (le_refl U32) hU
      _ = total * U32 := rfl
  have heq : ratio32 c total = c * U32 / total := by
    unfold ratio32
    exact Nat.mod_eq_of_lt hlt
  refine ⟨heq, ?_, hlt⟩
  rw [heq]
  apply (Nat.le_div_iff_mul_le htp).mpr
  calc 1 * total = total := by ring
    _ ≤ U32 := ht
    _ ≤ c * U32 := by
        calc U32 = 1 * U32 := by ring
          _ ≤ c * U32 := Nat.mul_le_mul_right _ hc

theorem sum_map_add_one {A : Type} (l : List A) (f : A → Nat) :
    (l.map (fun a => f a + 1)).sum = (l.map f).sum + l.length := by
  induction l with
  | nil => rfl
  | cons a rest ih =>
    simp only [List.map_cons, List.sum_cons, List.length_cons, ih]
    omega

theorem sum_map_two_mul {A : Type} (l : List A) (f : A → Nat) :
    (l.map (fun a => 2 * f a)).sum = 2 * (l.map f).sum := by
  induction l with
  | nil => rfl
  | cons a rest ih =>
    simp only [List.map_cons, List.sum_cons, ih]
    omega

theorem canonLE_trans : ∀ a b c : V × Nat × Nat,
    canonLE a b = true → canonLE b c = true → canonLE a c = true := by
  intro a b c hab hbc
  simp only [canonLE, decide_eq_true_eq] at hab hbc ⊢
  rcases hab with h | ⟨hp, h2⟩
  · rcases hbc with h' | ⟨hp', _⟩
    · left; omega
    · left; omega
  · rcases hbc with h' | ⟨hp', h2'⟩
    · left; omega
    · right
      refine ⟨by omega, ?_⟩
      rcases h2 with h | ⟨ht, hk⟩
      · rcases h2' with h' | ⟨ht', _⟩
        · left; omega
        · left; omega
      · rcases h2' with h' | ⟨ht', hk'⟩
        · left; omega
        · right; exact ⟨by omega, le_trans hk hk'⟩

theorem canonLE_total : ∀ a b : V × Nat × Nat,
    canonLE a b = true ∨ canonLE b a = true := by
  intro a b
  simp only [canonLE, decide_eq_true_eq]
  rcases Nat.lt_trichotomy (popcount32 a.2.1) (popcount32 b.2.1) with h | h | h
  · left; left; exact h
  · rcases Nat.lt_trichotomy (32 - tz32 a.2.1) (32 - tz32 b.2.1) with h2 | h2 | h2
    · left; right; exact ⟨h, Or.inl h2⟩
    · rcases le_total a.1 b.1 with h3 | h3
      · left; right; exact ⟨h, Or.inr ⟨h2, h3⟩⟩
      · right; right; exact ⟨h.symm, Or.inr ⟨h2.symm, h3⟩⟩
    · right; right; exact ⟨h.symm, Or.inl h2⟩
  · right; left; exact h

/-- Master width invariant: for at least two positive counts of total at most
`2^32`, the canonically sorted items have widths in `[1, 2^32)`, summing to
exactly `2^32`, with at most one non-power-of-two, canonically sorted, and
carrying the original value/count pairs. -/
theorem widthFacts_of (counts : List (V × Nat)) (hlen : 2 ≤ counts.length)
    (hpos : ∀ e ∈ counts, 1 ≤ e.2) (hsum : (counts.map (·.2)).sum ≤ U32) :
    WidthFacts counts := by
  have hpos' : ∀ x ∈ counts.map (·.2), 1 ≤ x := by
    intro x hx
    obtain ⟨e, he, rfl⟩ := List.mem_map.mp hx
    exact hpos e he
  have htotpos : 0 < (counts.map (·.2)).sum := by
    have := length_le_sum (counts.map (·.2)) hpos'
    simp only [List.length_map] at this
    omega
  have hclt : ∀ e ∈ counts, e.2 < (counts.map (·.2)).sum := by
    intro e he
    have hm : e.2 ∈ counts.map (·.2) := List.mem_map_of_mem _ he
    have := mem_add_length_le_sum _ hpos' _ hm
    simp only [List.length_map] at this
    omega
  have hrat : ∀ e ∈ counts,
      ratio32 e.2 ((counts.map (·.2)).sum) = e.2 * U32 / (counts.map (·.2)).sum ∧
      1 ≤ ratio32 e.2 ((counts.map (·.2)).sum) ∧
      e.2 * U32 / (counts.map (·.2)).sum < U32 :=
    fun e he => ratio32_facts (hpos e he) (hclt e he) hsum
  have hw0 : widthsOf (items0Of counts)
      = counts.map (fun e => floorPow2 (ratio32 e.2 ((counts.map (·.2)).sum))) := by
    simp only [widthsOf, items0Of, List.map_map]
    rfl
  have h0lb : ∀ w ∈ widthsOf (items0Of counts), 1 ≤ w := by
    rw [hw0]
    intro w hw
    obtain ⟨e, he, rfl⟩ := List.mem_map.mp hw
    exact floorPow2_pos _
  have h0p2 : ∀ w ∈ widthsOf (items0Of counts), isPow2 w = true := by
    rw [hw0]
    intro w hw
    obtain ⟨e, he, rfl⟩ := List.mem_map.mp hw
    obtain ⟨j, _, hj⟩ := floorPow2_pow2
      (x := ratio32 e.2 ((counts.map (·.2)).sum)) (Nat.mod_lt _ (by norm_num [U32]))
    rw [hj]
    exact isPow2_two_pow j
  have h0ub : ∀ w ∈ widthsOf (items0Of counts), w < U32 := by
    rw [hw0]
    intro w hw
    obtain ⟨e, he, rfl⟩ := List.mem_map.mp hw
    obtain ⟨heq, h1, hlt⟩ := hrat e he
    calc floorPow2 (ratio32 e.2 ((counts.map (·.2)).sum))
        ≤ ratio32 e.2 ((counts.map (·.2)).sum) := floorPow2_le (by omega) (by rw [heq]; exact hlt)
      _ < U32 := by rw [heq]; exact hlt
  have hSle : (widthsOf (items0Of counts)).sum ≤ U32 := by
    have hle1 : (widthsOf (items0Of counts)).sum
        ≤ (counts.map (fun e => e.2 * U32 / (counts.map (·.2)).sum)).sum := by
      rw [hw0]
      apply List.sum_le_sum
      intro e he
      obtain ⟨heq, h1, hlt⟩ := hrat e he
      calc floorPow2 (ratio32 e.2 ((counts.map (·.2)).sum))
          ≤ ratio32 e.2 ((counts.map (·.2)).sum) := floorPow2_le (by omega) (by rw [heq]; exact hlt)
        _ = e.2 * U32 / (counts.map (·.2)).sum := heq
    have hle2 : (counts.map (fun e => e.2 * U32 / (counts.map (·.2)).sum)).sum ≤ U32 := by
      have h := sum_mul_div_le (counts.map (·.2)) ((counts.map (·.2)).sum) U32
      rw [List.map_map] at h
      exact Nat.le_of_mul_le_mul_left h htotpos
    omega
  have hSge : U32 + 1 ≤ 2 * (widthsOf (items0Of counts)).sum := by
    have hra : U32 + 1
        ≤ (counts.map (fun e => e.2 * U32 / (counts.map (·.2)).sum)).sum + counts.length := by
      have h := sum_mul_div_ge (counts.map (·.2)) ((counts.map (·.2)).sum) U32 htotpos
      rw [List.map_map] at h
      simp only [List.length_map] at h
      by_contra hc
      push_neg at hc
      have hle : (counts.map (fun e => e.2 * U32 / (counts.map (·.2)).sum)).sum + counts.length
          ≤ U32 := by omega
      have hmul : (counts.map (·.2)).sum *
          ((counts.map (fun e => e.2 * U32 / (counts.map (·.2)).sum)).sum + counts.length)
          ≤ (counts.map (·.2)).sum * U32 := Nat.mul_le_mul_left _ hle
      have hgoal := le_trans h hmul
      omega
    have hptw : (counts.map (fun e => e.2 * U32 / (counts.map (·.2)).sum + 1)).sum
        ≤ (counts.map (fun e =>
            2 * floorPow2 (ratio32 e.2 ((counts.map (·.2)).sum)))).sum := by
      apply List.sum_le_sum
      intro e he
      obtain ⟨heq, h1, hlt⟩ := hrat e he
      have h2 := two_mul_floorPow2 (x := ratio32 e.2 ((counts.map (·.2)).sum))
        (by rw [heq]; exact hlt)
      omega
    have e1 := sum_map_add_one counts (fun e => e.2 * U32 / (counts.map (·.2)).sum)
    have e2 := sum_map_two_mul counts (fun e => floorPow2 (ratio32 e.2 ((counts.map (·.2)).sum)))
    rw [hw0]
    omega
  have hperm1 : (stSort fitLE (items0Of counts)).Perm (items0Of counts) := stSort_perm _
  have hw1perm : (widthsOf (stSort fitLE (items0Of counts))).Perm (widthsOf (items0Of counts)) :=
    hperm1.map _
  have hS1 : (widthsOf (stSort fitLE (items0Of counts))).sum = (widthsOf (items0Of counts)).sum :=
    hw1perm.sum_eq
  have hlen0 : (items0Of counts).length = counts.length := by simp [items0Of]
  have hlen1 : (stSort fitLE (items0Of counts)).length = counts.length := by
    rw [hperm1.length_eq, hlen0]
  have hSpos : 2 ≤ (widthsOf (items0Of counts)).sum := by
    have h := length_le_sum (widthsOf (items0Of counts)) h0lb
    have : (widthsOf (items0Of counts)).length = counts.length := by
      simp [widthsOf, hlen0]
    omega
  have hrem : rem0Of counts = U32 - (widthsOf (items0Of counts)).sum := by
    unfold rem0Of wneg32
    rcases Nat.lt_or_ge ((widthsOf (items0Of counts)).sum) U32 with h | h
    · rw [Nat.mod_eq_of_lt h, Nat.mod_eq_of_lt h, Nat.mod_eq_of_lt
        (show U32 - (widthsOf (items0Of counts)).sum < U32 by omega)]
    · have hSU : (widthsOf (items0Of counts)).sum = U32 := by omega
      rw [hSU]
      norm_num
  have hinv : ∀ it ∈ stSort fitLE (items0Of counts), rem0Of counts + it.2.1 < U32 := by
    intro it hit
    have hwmem : it.2.1 ∈ widthsOf (stSort fitLE (items0Of counts)) :=
      List.mem_map_of_mem _ hit
    have hall1 : ∀ w ∈ widthsOf (stSort fitLE (items0Of counts)), 1 ≤ w := by
      intro w hw
      exact h0lb w (hw1perm.subset hw)
    have hb := mem_add_length_le_sum _ hall1 _ hwmem
    have hlw : (widthsOf (stSort fitLE (items0Of counts))).length = counts.length := by
      simp [widthsOf, hlen1]
    rw [hS1, hlw] at hb
    rw [hrem]
    omega
  have hrem_le : rem0Of counts ≤ (widthsOf (stSort fitLE (items0Of counts))).sum := by
    rw [hS1, hrem]
    omega
  have h1lb : ∀ it ∈ stSort fitLE (items0Of counts), 1 ≤ it.2.1 := by
    intro it hit
    exact h0lb it.2.1 (hw1perm.subset (List.mem_map_of_mem _ hit))
  have h1ub : ∀ it ∈ stSort fitLE (items0Of counts), it.2.1 < U32 := by
    intro it hit
    exact h0ub it.2.1 (hw1perm.subset (List.mem_map_of_mem _ hit))
  have h1p2 : ∀ w ∈ widthsOf (stSort fitLE (items0Of counts)), isPow2 w = true := by
    intro w hw
    exact h0p2 w (hw1perm.subset hw)
  have h2sum : (widthsOf (expandItems (rem0Of counts) (stSort fitLE (items0Of counts)))).sum
      = U32 := by
    rw [expandItems_sum _ _ hinv hrem_le, hS1, hrem]
    omega
  have h2np2 := expandItems_pow2_count (rem0Of counts) (stSort fitLE (items0Of counts)) hinv h1p2
  have h2lb := expandItems_width_lb (rem0Of counts) (stSort fitLE (items0Of counts)) hinv h1lb
  have h2ub := expandItems_width_ub (rem0Of counts) (stSort fitLE (items0Of counts)) h1ub
  have hperm3 : (items3Of counts).Perm
      (expandItems (rem0Of counts) (stSort fitLE (items0Of counts))) := stSort_perm _
  have hw3perm := hperm3.map (·.2.1)
  constructor
  case len =>
    rw [hperm3.length_eq, expandItems_length, hlen1]
  case w_lb =>
    intro it hit
    exact h2lb it (hperm3.subset hit)
  case w_ub =>
    intro it hit
    exact h2ub it (hperm3.subset hit)
  case w_sum =>
    rw [show widthsOf (items3Of counts) = (items3Of counts).map (·.2.1) from rfl]
    rw [hw3perm.sum_eq]
    exact h2sum
  case w_np2 =>
    rw [show widthsOf (items3Of counts) = (items3Of counts).map (·.2.1) from rfl]
    rw [hw3perm.countP_eq]
    exact h2np2
  case sorted => exact stSort_sorted canonLE_trans canonLE_total _
  case kc_perm =>
    have p1 := hperm3.map (fun it => (it.1, it.2.2))
    rw [expandItems_kc] at p1
    refine p1.trans ?_
    have p2 := hperm1.map (fun it => (it.1, it.2.2))
    refine p2.trans ?_
    have : (items0Of counts).map (fun it => (it.1, it.2.2)) = counts := by
      simp only [items0Of, List.map_map]
      exact List.map_id' counts
    rw [this]

theorem respList_facts : ∀ (items : List (V × Nat × Nat)) (t : Nat),
    (∀ it ∈ items, 1 ≤ it.2.1) → t + (widthsOf items).sum ≤ U32 →
    List.Chain' (· < ·) ((respList items t).map (·.1)) ∧
    ∀ lo ∈ (respList items t).map (·.1), t ≤ lo := by
  intro items
  induction items with
  | nil => intro t _ _; exact ⟨List.chain'_nil, by simp [respList]⟩
  | cons it rest ih =>
    intro t hlb hle
    obtain ⟨k, w, c⟩ := it
    have hw1 : 1 ≤ w := hlb (k, w, c) (by simp)
    simp only [widthsOf, List.map_cons, List.sum_cons] at hle
    cases rest with
    | nil =>
      refine ⟨?_, ?_⟩
      · simp [respList]
      · intro lo hlo
        simp only [respList, List.map_cons, List.map_nil] at hlo
        have : lo = t := by simpa using hlo
        omega
    | cons r rs =>
      simp only [List.map_cons, List.sum_cons] at hle
      have hposw : ∀ x ∈ widthsOf (r :: rs), 1 ≤ x := by
        intro x hx
        obtain ⟨e, he, rfl⟩ := List.mem_map.mp hx
        exact hlb e (by simp [he])
      have hlen := length_le_sum _ hposw
      simp only [widthsOf, List.map_cons, List.sum_cons, List.length_cons,
        List.length_map] at hlen
      have hmod : (t + w) % U32 = t + w := Nat.mod_eq_of_lt (by omega)
      have hrec := ih (t + w) (fun x hx => hlb x (by simp [hx])) (by
        simp only [widthsOf, List.map_cons, List.sum_cons]
        omega)
      rw [show respList ((k, w, c) :: r :: rs) t
          = (t, k) :: respList (r :: rs) ((t + w) % U32) from rfl, hmod]
      refine ⟨?_, ?_⟩
      · rw [List.map_cons]
        apply List.chain'_cons'.mpr
        refine ⟨?_, hrec.1⟩
        intro b hb
        rcases hh : ((respList (r :: rs) (t + w)).map (·.1)).head? with _ | ⟨lo⟩
        · rw [hh] at hb; cases hb
        · rw [hh] at hb
          have hbl : lo = b := by
            rw [Option.mem_def] at hb
            exact Option.some.inj hb
          have hlom : lo ∈ (respList (r :: rs) (t + w)).map (·.1) :=
            List.mem_of_mem_head? hh
          have hto := hrec.2 lo hlom
          show t < b
          exact hbl ▸ (lt_of_lt_of_le (by omega) hto)
      · intro lo hlo
        rw [List.map_cons] at hlo
        rcases List.mem_cons.mp hlo with h | h
        · have hlt : lo = t := h
          omega
        · have := hrec.2 lo h
          omega

theorem respList_head : ∀ (items : List (V × Nat × Nat)) (t : Nat), items ≠ [] →
    ((respList items t).map (·.1)).head? = some t := by
  intro items t h
  cases items with
  | nil => exact absurd rfl h
  | cons it rest =>
    obtain ⟨k, w, c⟩ := it
    rfl

theorem ivList_widths : ∀ (items : List (V × Nat × Nat)) (t : Nat),
    (∀ it ∈ items, 1 ≤ it.2.1) → t + (widthsOf items).sum ≤ U32 →
    ivWidths (ivList items t) = widthsOf items := by
  intro items
  induction items with
  | nil => intro t _ _; rfl
  | cons it rest ih =>
    intro t hlb hle
    obtain ⟨k, w, c⟩ := it
    have hw1 : 1 ≤ w := hlb (k, w, c) (by simp)
    simp only [widthsOf, List.map_cons, List.sum_cons] at hle
    have hmod1 : (t + (w - 1)) % U32 = t + (w - 1) := Nat.mod_eq_of_lt (by omega)
    rw [show ivList ((k, w, c) :: rest) t
        = (c, t, (t + (w - 1)) % U32) :: ivList rest ((t + w) % U32) from rfl]
    simp only [ivWidths, widthsOf, List.map_cons, hmod1]
    rw [show t + (w - 1) + 1 - t = w from by omega]
    cases rest with
    | nil => rfl
    | cons r rs =>
      simp only [List.map_cons, List.sum_cons] at hle
      have hposw : ∀ x ∈ widthsOf (r :: rs), 1 ≤ x := by
        intro x hx
        obtain ⟨e, he, rfl⟩ := List.mem_map.mp hx
        exact hlb e (by simp [he])
      have hlen := length_le_sum _ hposw
      simp only [widthsOf, List.map_cons, List.sum_cons, List.length_cons,
        List.length_map] at hlen
      have hmod2 : (t + w) % U32 = t + w := Nat.mod_eq_of_lt (by omega)
      rw [hmod2]
      have hrec := ih (t + w) (fun x hx => hlb x (by simp [hx])) (by
        simp only [widthsOf, List.map_cons, List.sum_cons]
        omega)
      simp only [ivWidths, widthsOf, List.map_cons] at hrec
      rw [hrec]
      rfl

theorem ivList_lows : ∀ (items : List (V × Nat × Nat)) (t : Nat),
    (ivList items t).map (·.2.1) = (respList items t).map (·.1) := by
  intro items
  induction items with
  | nil => intro t; rfl
  | cons it rest ih =>
    intro t
    obtain ⟨k, w, c⟩ := it
    simp only [ivList, respList, List.map_cons]
    rw [ih]

theorem respDeltas_cons_cons (a b : Locator × V) (l : List (Locator × V)) :
    respDeltas (a :: b :: l) = (b.1 - a.1) :: respDeltas (b :: l) := rfl

theorem respDeltas_eq_dropLast : ∀ (items : List (V × Nat × Nat)) (t : Nat),
    (∀ it ∈ items, 1 ≤ it.2.1) → t + (widthsOf items).sum ≤ U32 →
    respDeltas (respList items t) = (widthsOf items).dropLast := by
  intro items
  induction items with
  | nil => intro t _ _; rfl
  | cons it rest ih =>
    intro t hlb hle
    obtain ⟨k, w, c⟩ := it
    cases rest with
    | nil => rfl
    | cons r rs =>
      obtain ⟨rk, rwd, rc⟩ := r
      simp only [widthsOf, List.map_cons, List.sum_cons] at hle
      have hrw1 : 1 ≤ rwd := hlb (rk, rwd, rc) (by simp)
      have hmod : (t + w) % U32 = t + w := Nat.mod_eq_of_lt (by omega)
      have hrec := ih (t + w) (fun x hx => hlb x (by simp [hx])) (by
        simp only [widthsOf, List.map_cons, List.sum_cons]
        omega)
      rw [show respList ((k, w, c) :: (rk, rwd, rc) :: rs) t
          = (t, k) :: respList ((rk, rwd, rc) :: rs) ((t + w) % U32) from rfl, hmod]
      rw [show respList ((rk, rwd, rc) :: rs) (t + w)
          = (t + w, rk) :: respList rs ((t + w + rwd) % U32) from rfl]
      rw [respDeltas_cons_cons]
      rw [show ((t + w, rk) : Locator × V) :: respList rs ((t + w + rwd) % U32)
          = respList ((rk, rwd, rc) :: rs) (t + w) from rfl]
      rw [hrec]
      rw [show widthsOf ((k, w, c) :: (rk, rwd, rc) :: rs)
          = w :: widthsOf ((rk, rwd, rc) :: rs) from rfl]
      rw [show (w :: widthsOf ((rk, rwd, rc) :: rs)).dropLast
          = w :: (widthsOf ((rk, rwd, rc) :: rs)).dropLast from rfl]
      rw [show t + w - t = w from by omega]

theorem canonLE_pc {a b : V × Nat × Nat} (h : canonLE a b = true) :
    popcount32 a.2.1 ≤ popcount32 b.2.1 := by
  simp only [canonLE, decide_eq_true_eq] at h
  rcases h with h | ⟨he, _⟩
  · omega
  · omega

theorem popcount32_two_le {w : Nat} (h1 : 1 ≤ w) (hU : w < U32)
    (hnp : isPow2 w = false) : 2 ≤ popcount32 w := by
  have hpos := popcount32_pos (by omega) hU
  have hne : popcount32 w ≠ 1 := by
    intro he
    rw [(popcount32_eq_one_iff hU).mp he] at hnp
    cases hnp
  omega

theorem not_pow2_of_pc {w : Nat} (hU : w < U32) (h : 2 ≤ popcount32 w) :
    isPow2 w = false := by
  rcases hp : isPow2 w with _ | _
  · rfl
  · have := (popcount32_eq_one_iff hU).mpr hp
    omega

/-- In a canonically sorted item list with at most one non-power-of-two
width, every width except possibly the last is a power of two. -/
theorem sorted_np2_dropLast : ∀ (items : List (V × Nat × Nat)),
    SortedB canonLE items →
    (widthsOf items).countP (fun w => !(isPow2 w)) ≤ 1 →
    (∀ w ∈ widthsOf items, 1 ≤ w) → (∀ w ∈ widthsOf items, w < U32) →
    ∀ w ∈ (widthsOf items).dropLast, isPow2 w = true := by
  intro items
  induction items with
  | nil => intro _ _ _ _ w hw; cases hw
  | cons it rest ih =>
    intro hsort hcnt hlb hub w hw
    cases rest with
    | nil => cases hw
    | cons r rs =>
      rw [show widthsOf (it :: r :: rs) = it.2.1 :: widthsOf (r :: rs) from rfl] at hw
      rw [show (it.2.1 :: widthsOf (r :: rs)).dropLast
          = it.2.1 :: (widthsOf (r :: rs)).dropLast from by
        rw [List.dropLast_cons_of_ne_nil]
        simp [widthsOf]] at hw
      rcases List.mem_cons.mp hw with hwh | hwt
      · subst hwh
        by_contra hnp2
        rw [Bool.not_eq_true] at hnp2
        have hpc2 : 2 ≤ popcount32 it.2.1 :=
          popcount32_two_le (hlb _ (by simp [widthsOf])) (hub _ (by simp [widthsOf])) hnp2
        rw [SortedB, List.pairwise_cons] at hsort
        have hle := canonLE_pc (hsort.1 r (by simp))
        have hrnp : isPow2 r.2.1 = false :=
          not_pow2_of_pc (hub _ (by simp [widthsOf])) (by omega)
        have hcp : 0 < (widthsOf (r :: rs)).countP (fun w => !(isPow2 w)) := by
          apply List.countP_pos.mpr
          exact ⟨r.2.1, by simp [widthsOf], by rw [hrnp]; rfl⟩
        rw [show widthsOf (it :: r :: rs) = it.2.1 :: widthsOf (r :: rs) from rfl,
          List.countP_cons] at hcnt
        rw [hnp2] at hcnt
        have hc1 : (widthsOf (r :: rs)).countP (fun w => !(isPow2 w)) + 1 ≤ 1 := by
          simpa using hcnt
        omega
      · apply ih
        · rw [SortedB, List.pairwise_cons] at hsort
          exact hsort.2
        · rw [show widthsOf (it :: r :: rs) = it.2.1 :: widthsOf (r :: rs) from rfl,
            List.countP_cons] at hcnt
          omega
        · intro x hx
          exact hlb x (by rw [show widthsOf (it :: r :: rs)
              = it.2.1 :: widthsOf (r :: rs) from rfl]; simp [hx])
        · intro x hx
          exact hub x (by rw [show widthsOf (it :: r :: rs)
              = it.2.1 :: widthsOf (r :: rs) from rfl]; simp [hx])
        · exact hwt

end PlanLemmas

/-! ## Counting lemmas -/

section CountLemmas

variable {K V : Type} [DecidableEq V]

theorem bumpCount_ne_nil (acc : List (V × Nat)) (v : V) : bumpCount acc v ≠ [] := by
  cases acc with
  | nil => simp [bumpCount]
  | cons p rest =>
    rw [show bumpCount (p :: rest) v
        = if p.1 = v then (p.1, p.2 + 1) :: rest else (p.1, p.2) :: bumpCount rest v from rfl]
    split <;> simp

theorem foldl_bump_ne_nil :
    ∀ (l : List (K × V)) (acc : List (V × Nat)), acc ≠ [] →
      l.foldl (fun acc kv => bumpCount acc kv.2) acc ≠ [] := by
  intro l
  induction l with
  | nil => intro acc h; exact h
  | cons kv rest ih =>
    intro acc _
    exact ih (bumpCount acc kv.2) (bumpCount_ne_nil acc kv.2)

theorem countsList_ne_nil (l : List (K × V)) (h : l ≠ []) : countsList l ≠ [] := by
  cases l with
  | nil => exact absurd rfl h
  | cons kv rest =>
    unfold countsList
    rw [List.foldl_cons]
    exact foldl_bump_ne_nil rest _ (bumpCount_ne_nil [] kv.2)

theorem foldl_bump_const (v0 : V) :
    ∀ (l : List (K × V)) (c : Nat), (∀ kv ∈ l, kv.2 = v0) →
      l.foldl (fun acc kv => bumpCount acc kv.2) [(v0, c)] = [(v0, c + l.length)] := by
  intro l
  induction l with
  | nil => intro c _; simp
  | cons kv rest ih =>
    intro c hall
    have h2 : kv.2 = v0 := hall kv (by simp)
    rw [List.foldl_cons]
    rw [show bumpCount [(v0, c)] kv.2 = [(v0, c + 1)] from by simp [bumpCount, h2]]
    rw [ih (c + 1) (fun x hx => hall x (by simp [hx]))]
    simp only [List.length_cons]
    congr 2
    omega

theorem bumpCount_sum (acc : List (V × Nat)) (v : V) :
    ((bumpCount acc v).map (·.2)).sum = (acc.map (·.2)).sum + 1 := by
  induction acc with
  | nil => rfl
  | cons p rest ih =>
    rw [show bumpCount (p :: rest) v
        = if p.1 = v then (p.1, p.2 + 1) :: rest else (p.1, p.2) :: bumpCount rest v from rfl]
    split
    · simp only [List.map_cons, List.sum_cons]
      omega
    · simp only [List.map_cons, List.sum_cons, ih]
      omega

theorem bumpCount_pos (acc : List (V × Nat)) (v : V) (h : ∀ e ∈ acc, 1 ≤ e.2) :
    ∀ e ∈ bumpCount acc v, 1 ≤ e.2 := by
  induction acc with
  | nil =>
    intro e he
    have : e = (v, 1) := by simpa [bumpCount] using he
    rw [this]
  | cons p rest ih =>
    rw [show bumpCount (p :: rest) v
        = if p.1 = v then (p.1, p.2 + 1) :: rest else (p.1, p.2) :: bumpCount rest v from rfl]
    split
    · intro e he
      rcases List.mem_cons.mp he with he | he
      · rw [he]
        have := h p (by simp)
        omega
      · exact h e (by simp [he])
    · intro e he
      rcases List.mem_cons.mp he with he | he
      · rw [he]
        exact h p (by simp)
      · exact ih (fun x hx => h x (by simp [hx])) e he

theorem countsList_sum (l : List (K × V)) :
    ((countsList l).map (·.2)).sum = l.length := by
  have aux : ∀ (l : List (K × V)) (acc : List (V × Nat)),
      ((l.foldl (fun acc kv => bumpCount acc kv.2) acc).map (·.2)).sum
        = (acc.map (·.2)).sum + l.length := by
    intro l
    induction l with
    | nil => intro acc; simp
    | cons kv rest ih =>
      intro acc
      rw [List.foldl_cons, ih (bumpCount acc kv.2), bumpCount_sum]
      simp only [List.length_cons]
      omega
  simpa using aux l []

theorem countsList_pos (l : List (K × V)) : ∀ e ∈ countsList l, 1 ≤ e.2 := by
  have aux : ∀ (l : List (K × V)) (acc : List (V × Nat)), (∀ e ∈ acc, 1 ≤ e.2) →
      ∀ e ∈ l.foldl (fun acc kv => bumpCount acc kv.2) acc, 1 ≤ e.2 := by
    intro l
    induction l with
    | nil => intro acc h; exact h
    | cons kv rest ih =>
      intro acc h
      rw [List.foldl_cons]
      exact ih _ (bumpCount_pos acc kv.2 h)
  exact aux l [] (by intro e he; cases he)

/-- When every value equals `v0`, the count table is `[(v0, l.length)]`. -/
theorem countsList_const (l : List (K × V)) (v0 : V) (hne : l ≠ [])
    (hall : ∀ kv ∈ l, kv.2 = v0) : countsList l = [(v0, l.length)] := by
  cases l with
  | nil => exact absurd rfl hne
  | cons kv rest =>
    unfold countsList
    rw [List.foldl_cons]
    rw [show bumpCount [] kv.2 = [(v0, 1)] from by simp [bumpCount, hall kv (by simp)]]
    rw [foldl_bump_const v0 rest 1 (fun x hx => hall x (by simp [hx]))]
    simp [Nat.add_comm]

end CountLemmas

/-! ## Claims C7, C4, C9 -/

section EasyClaims

variable {K V : Type} [DecidableEq K] [LinearOrder V]

/-- C7: for every input mapping whose values are all equal, `build` produces
a map with `plan = 0`, empty core, empty salt and response table `[(0, v)]`
(leaving `try_num` untouched), and every query — also on keys outside the
input — returns that value. -/
theorem C7_single_value (ub : UniformBuilder K) (l : List (K × V))
    (opts : BuildOptions) (v0 : V) (hne : l ≠ []) (hall : ∀ kv ∈ l, kv.2 = v0) :
    build ub l opts = some (⟨0, [(0, v0)], [], []⟩, [], opts.try_num) ∧
    ∀ k : K, query (⟨0, [(0, v0)], [], []⟩ : CompressedMap V) [] k = some v0 := by
  constructor
  · unfold build
    rw [countsList_const l v0 hne hall]
  · intro k
    rfl

/-- Closed instance of C7. -/
theorem C7_witness :
    build (ubModel 1 ckModel) [((1 : Nat), (7 : Nat)), (2, 7), (3, 7)] opts0
      = some (⟨0, [(0, 7)], [], []⟩, [], 0) ∧
    query (⟨0, [(0, (7 : Nat))], [], []⟩ : CompressedMap Nat) [] (99 : Nat) = some 7 := by
  have h := C7_single_value (ubModel 1 ckModel) [((1 : Nat), (7 : Nat)), (2, 7), (3, 7)]
    opts0 7 (by decide) (by decide)
  exact ⟨h.1, h.2 99⟩

/-- C4 counterexample: a non-empty input on which `build` returns `none`
(the second phase-loop exit: the uniform sub-builder fails within its retry
budget, modelled by the always-failing collaborator, and `build` propagates
the failure through the `?` operator). -/
theorem C4_counterexample :
    ([((0 : Nat), (0 : Nat)), (1, 1)] : List (Nat × Nat)) ≠ [] ∧
    (build (fun _ _ => none) [((0 : Nat), (0 : Nat)), (1, 1)] opts0).isSome = false := by
  exact ⟨by decide, by decide⟩

theorem runPhases_isSome (ub : UniformBuilder K) (hub : ∀ ps o, (ub ps o).isSome)
    (opts : BuildOptions) (pr : Prep K V) :
    ∀ (ps : List Nat) (st : PhaseState K), (runPhases ub opts pr ps st).isSome := by
  intro ps
  induction ps with
  | nil => intro st; rfl
  | cons p rest ih =>
    intro st
    unfold runPhases
    obtain ⟨r, hr⟩ := Option.isSome_iff_exists.mp
      (hub (participants pr p st.cv) (phaseOptions opts pr st p))
    rw [show phaseStep ub opts pr st p = some (phaseApply pr st p r) from by
      unfold phaseStep; rw [hr]; rfl]
    exact ih _

/-- C4 (amended): `build` returns `none` only when the input mapping is empty
or a phase sub-build fails; with a collaborator that always succeeds, every
non-empty input yields a map. -/
theorem C4_build_some (ub : UniformBuilder K) (hub : ∀ ps o, (ub ps o).isSome)
    (l : List (K × V)) (opts : BuildOptions) (hne : l ≠ []) :
    (build ub l opts).isSome := by
  unfold build
  rcases hcl : countsList l with _ | ⟨c, _ | ⟨c2, rest⟩⟩
  · exact absurd hcl (countsList_ne_nil l hne)
  · rfl
  · obtain ⟨st, hst⟩ := Option.isSome_iff_exists.mp
      (runPhases_isSome ub hub opts (prep l) (List.range (prep l).nphases)
        { cv := List.replicate (prep l).scan.n_omo 0, saltAcc := [], cores := [],
          fs := [], tries := opts.try_num })
    dsimp only
    rw [hst]
    rfl

/-- Closed instance of C4 (amended). -/
theorem C4_witness :
    (build (ubModel 1 ckModel) [((0 : Nat), (0 : Nat)), (1, 1)] opts0).isSome := by
  apply C4_build_some (ubModel 1 ckModel) (fun ps o => rfl)
  decide

/-- C9 counterexample: two presentations of the same input mapping (a
permutation — i.e. two iteration orders of the randomized counts `HashMap`)
whose builds succeed but produce different maps and different encoded byte
streams, with identical options and seed. -/
theorem C9_counterexample :
    ([((10 : Nat), (0 : Nat)), (11, 1), (12, 2)] : List (Nat × Nat)).Perm
        [(11, 1), (10, 0), (12, 2)] ∧
    ((build (ubModel 1 ckModel) [((10 : Nat), (0 : Nat)), (11, 1), (12, 2)] opts0).map
        (fun r => r.1)) ≠
      ((build (ubModel 1 ckModel) [(11, 1), (10, 0), (12, 2)] opts0).map (fun r => r.1)) ∧
    ((build (ubModel 1 ckModel) [((10 : Nat), (0 : Nat)), (11, 1), (12, 2)] opts0).map
        (fun r => encodeMap encVarint r.1)) ≠
      ((build (ubModel 1 ckModel) [(11, 1), (10, 0), (12, 2)] opts0).map
        (fun r => encodeMap encVarint r.1)) := by
  refine ⟨by decide, by decide, by decide⟩

/-- C9 (amended): `build` is deterministic given the iteration order of the
internal value-counts table — for identical input sequences and identical
options, the encoded byte streams are identical. -/
theorem C9_deterministic (ub : UniformBuilder K) (encV : V → List Nat)
    (l1 l2 : List (K × V)) (opts : BuildOptions) (h : l1 = l2) :
    (build ub l1 opts).map (fun r => encodeMap encV r.1)
      = (build ub l2 opts).map (fun r => encodeMap encV r.1) := by
  subst h
  rfl

/-- Closed instance of C9 (amended). -/
theorem C9_witness :
    (build (ubModel 1 ckModel) [((5 : Nat), (1 : Nat)), (6, 2)] opts0).map
        (fun r => encodeMap encVarint r.1)
      = (build (ubModel 1 ckModel) [((5 : Nat), (1 : Nat)), (6, 2)] opts0).map
        (fun r => encodeMap encVarint r.1) :=
  C9_deterministic (ubModel 1 ckModel) encVarint _ _ opts0 rfl

end EasyClaims

/-! ## Claims C5, C6, C10 -/

section WidthClaims

variable {K V : Type} [DecidableEq K] [LinearOrder V]

theorem prep_resp (l : List (K × V)) :
    (prep l).resp = (formulatePlan (countsList l)).2.2.2 := rfl

theorem prep_plan (l : List (K × V)) :
    (prep l).plan = (formulatePlan (countsList l)).1 := rfl

theorem prep_iv (l : List (K × V)) :
    (prep l).iv = (formulatePlan (countsList l)).2.2.1 := rfl

theorem prep_nphases (l : List (K × V)) :
    (prep l).nphases = popcount32 (prep l).plan := rfl

/-- Inversion of `build` into its single-value and general branches. -/
theorem build_inv (ub : UniformBuilder K) (l : List (K × V)) (opts : BuildOptions)
    (m : CompressedMap V) (fs : List (K → Nat)) (tn : Nat)
    (hb : build ub l opts = some (m, fs, tn)) :
    (∃ c, countsList l = [c] ∧ m = ⟨0, [(0, c.1)], [], []⟩ ∧ fs = [] ∧ tn = opts.try_num) ∨
    (2 ≤ (countsList l).length ∧ ∃ st : PhaseState K,
      runPhases ub opts (prep l) (List.range (prep l).nphases)
        { cv := List.replicate (prep l).scan.n_omo 0, saltAcc := [], cores := [],
          fs := [], tries := opts.try_num } = some st ∧
      m = ⟨(prep l).plan, (prep l).resp,
        (st.saltAcc.drop 1).take ((prep l).nphases - 1), st.cores⟩ ∧
      fs = st.fs ∧ tn = st.tries) := by
  unfold build at hb
  rcases hcl : countsList l with _ | ⟨c, _ | ⟨c2, rest⟩⟩ <;> rw [hcl] at hb
  · cases hb
  · left
    refine ⟨c, rfl, ?_⟩
    injection hb with h1
    injection h1 with h2 h3
    injection h3 with h4 h5
    exact ⟨h2.symm, h4.symm, h5.symm⟩
  · right
    refine ⟨by simp, ?_⟩
    dsimp only at hb
    rcases hrun : runPhases ub opts (prep l) (List.range (prep l).nphases)
        { cv := List.replicate (prep l).scan.n_omo 0, saltAcc := [], cores := [],
          fs := [], tries := opts.try_num } with _ | st
    · rw [hrun] at hb
      cases hb
    · rw [hrun] at hb
      refine ⟨st, rfl, ?_⟩
      injection hb with h1
      injection h1 with h2 h3
      injection h3 with h4 h5
      exact ⟨h2.symm, h4.symm, h5.symm⟩

/-- C5: for inputs with at least two distinct values (positive counts whose
total fits the key space), the interval widths produced by `formulate_plan`
are all powers of two except possibly one. -/
theorem C5_widths_pow2 (counts : List (V × Nat)) (hlen : 2 ≤ counts.length)
    (hpos : ∀ e ∈ counts, 1 ≤ e.2) (hsum : (counts.map (·.2)).sum ≤ U32) :
    (ivWidths (formulatePlan counts).2.2.1).countP (fun w => !(isPow2 w)) ≤ 1 := by
  have wf := widthFacts_of counts hlen hpos hsum
  have heq : (formulatePlan counts).2.2.1 = ivList (items3Of counts) 0 := by
    rw [formulatePlan_eq counts hlen]
  rw [heq, ivList_widths _ 0 wf.w_lb (by simp [wf.w_sum])]
  exact wf.w_np2

/-- Closed instance of C5. -/
theorem C5_witness :
    (ivWidths (formulatePlan [((0 : Nat), 7), (1, 3), (2, 1)]).2.2.1).countP
      (fun w => !(isPow2 w)) ≤ 1 :=
  C5_widths_pow2 [((0 : Nat), 7), (1, 3), (2, 1)] (by decide) (by decide) (by decide)

/-- C6: every response table produced by the plan formulator (from positive
counts whose total fits the key space) starts at locator 0 and is strictly
increasing in its lower bounds — the running width total never wraps before
the last entry. -/
theorem C6_resp_sorted (counts : List (V × Nat)) (hlen : 1 ≤ counts.length)
    (hpos : ∀ e ∈ counts, 1 ≤ e.2) (hsum : (counts.map (·.2)).sum ≤ U32) :
    ((formulatePlan counts).2.2.2.map (·.1)).head? = some 0 ∧
    List.Chain' (· < ·) ((formulatePlan counts).2.2.2.map (·.1)) := by
  rcases counts with _ | ⟨c, rest⟩
  · simp at hlen
  rcases rest with _ | ⟨c2, rest2⟩
  · constructor
    · rfl
    · simp [formulatePlan]
  · have hlen2 : 2 ≤ (c :: c2 :: rest2).length := by simp
    have wf := widthFacts_of (c :: c2 :: rest2) hlen2 hpos hsum
    have heq : (formulatePlan (c :: c2 :: rest2)).2.2.2
        = respList (items3Of (c :: c2 :: rest2)) 0 := by
      rw [formulatePlan_eq _ hlen2]
    rw [heq]
    have hfacts := respList_facts (items3Of (c :: c2 :: rest2)) 0 wf.w_lb (by simp [wf.w_sum])
    refine ⟨?_, hfacts.1⟩
    apply respList_head
    intro hnil
    have := wf.len
    rw [hnil] at this
    simp at this

/-- Closed instance of C6. -/
theorem C6_witness :
    ((formulatePlan [((0 : Nat), 7), (1, 3), (2, 1)]).2.2.2.map (·.1)).head? = some 0 ∧
    List.Chain' (· < ·) ((formulatePlan [((0 : Nat), 7), (1, 3), (2, 1)]).2.2.2.map (·.1)) :=
  C6_resp_sorted [((0 : Nat), 7), (1, 3), (2, 1)] (by decide) (by decide) (by decide)

/-- C10: in every map `build` produces (from at most `2^32` keys), a
non-power-of-two interval can only be the last entry: every width delta in
the response map — exactly what the `log_widths` encoding stores — is a power
of two, and the leading-zeros byte reconstructs it exactly. -/
theorem C10_deltas_pow2 (ub : UniformBuilder K) (l : List (K × V)) (opts : BuildOptions)
    (m : CompressedMap V) (fs : List (K → Nat)) (tn : Nat)
    (hlen : l.length ≤ U32) (hb : build ub l opts = some (m, fs, tn)) :
    (∀ d ∈ respDeltas m.response_map, isPow2 d = true) ∧
    (∀ d ∈ respDeltas m.response_map, 1 <<< (32 - logWidthByte d) = d) := by
  have hkey : ∀ d ∈ respDeltas m.response_map, isPow2 d = true ∧ d < U32 := by
    rcases build_inv ub l opts m fs tn hb with ⟨c, hcl, hm, _, _⟩ | ⟨hlen2, st, _, hm, _, _⟩
    · intro d hd
      rw [hm] at hd
      cases hd
    · have hsum : ((countsList l).map (·.2)).sum ≤ U32 := by
        rw [countsList_sum]
        exact hlen
      have wf := widthFacts_of (countsList l) hlen2 (countsList_pos l) hsum
      have hwlb : ∀ w ∈ widthsOf (items3Of (countsList l)), 1 ≤ w := by
        intro w hw
        obtain ⟨it, hit, rfl⟩ := List.mem_map.mp hw
        exact wf.w_lb it hit
      have hwub : ∀ w ∈ widthsOf (items3Of (countsList l)), w < U32 := by
        intro w hw
        obtain ⟨it, hit, rfl⟩ := List.mem_map.mp hw
        exact wf.w_ub it hit
      intro d hd
      have hrm : m.response_map = respList (items3Of (countsList l)) 0 := by
        rw [hm]
        show (prep l).resp = _
        rw [prep_resp, formulatePlan_eq _ hlen2]
      rw [hrm, respDeltas_eq_dropLast _ 0 wf.w_lb (by simp [wf.w_sum])] at hd
      have hdw : d ∈ widthsOf (items3Of (countsList l)) :=
        (List.dropLast_sublist _).subset hd
      exact ⟨sorted_np2_dropLast _ wf.sorted wf.w_np2 hwlb hwub d hd, hwub d hdw⟩
  constructor
  · exact fun d hd => (hkey d hd).1
  · intro d hd
    obtain ⟨hp2, hU⟩ := hkey d hd
    obtain ⟨j, rfl⟩ := isPow2_iff.mp hp2
    have hj : j < 32 := by
      by_contra hge
      have hle32 : (2 : Nat) ^ 32 ≤ 2 ^ j := Nat.pow_le_pow_right (by omega) (by omega)
      rw [show U32 = 2 ^ 32 from rfl] at hU
      omega
    unfold logWidthByte
    rw [if_neg (Nat.pos_pow_of_pos j (by omega)).ne', highBit_two_pow hj]
    rw [show 32 - (31 - j + 1) = j from by omega]
    rw [Nat.shiftLeft_eq, one_mul]

/-- Closed instance of C10. -/
theorem C10_witness :
    (∀ d ∈ respDeltas ((build (ubModel 1 ckModel) [((10 : Nat), (0 : Nat)), (11, 1), (12, 1)]
        opts0).getD (⟨0, [], [], []⟩, [], 0)).1.response_map, isPow2 d = true) ∧
    (∀ d ∈ respDeltas ((build (ubModel 1 ckModel) [((10 : Nat), (0 : Nat)), (11, 1), (12, 1)]
        opts0).getD (⟨0, [], [], []⟩, [], 0)).1.response_map, 1 <<< (32 - logWidthByte d) = d) := by
  rcases hb : build (ubModel 1 ckModel) [((10 : Nat), (0 : Nat)), (11, 1), (12, 1)] opts0
    with _ | ⟨m, fs, tn⟩
  · have hs : (build (ubModel 1 ckModel) [((10 : Nat), (0 : Nat)), (11, 1), (12, 1)]
        opts0).isSome = true := by decide
    rw [hb] at hs
    cases hs
  · simp only [Option.getD_some]
    exact C10_deltas_pow2 (ubModel 1 ckModel) _ opts0 m fs tn (by decide) hb

end WidthClaims

/-! ## Query-side lemmas: plan bits, known-mask growth, and `bsearch` -/

section QueryBitLemmas

theorem highBit_lt_32 (x : Nat) : highBit x < 32 := by
  unfold highBit
  rcases hl : ((List.range 32).filter (fun i => x.testBit i)).getLast? with _ | a
  · simp
  · have hne : (List.range 32).filter (fun i => x.testBit i) ≠ [] := by
      intro h
      rw [h] at hl
      cases hl
    rw [List.getLast?_eq_getLast _ hne] at hl
    have hmem := List.getLast_mem hne
    rw [Option.some.inj hl] at hmem
    simp only [Option.getD_some]
    exact List.mem_range.mp (List.mem_filter.mp hmem).1

theorem planBits_length (x : Nat) : (planBits x).length = popcount32 x := rfl

theorem tz32_eq_head (x : Nat) : tz32 x = ((planBits x).head?).getD 32 := rfl

theorem highBit_eq_getLast (x : Nat) : highBit x = ((planBits x).getLast?).getD 0 := rfl

theorem planBits_sorted (x : Nat) : (planBits x).Pairwise (· < ·) :=
  (List.pairwise_lt_range 32).filter _

theorem planBits_lt_32 {x i : Nat} (h : i ∈ planBits x) : i < 32 :=
  List.mem_range.mp (List.mem_filter.mp h).1

theorem planBits_testBit {x i : Nat} (h : i ∈ planBits x) : x.testBit i = true := by
  simpa using (List.mem_filter.mp h).2

theorem mem_planBits {x i : Nat} (hi : i < 32) (h : x.testBit i = true) : i ∈ planBits x :=
  List.mem_filter.mpr ⟨List.mem_range.mpr hi, by simpa using h⟩

theorem tz32_le_32 (x : Nat) : tz32 x ≤ 32 := by
  rw [tz32_eq_head]
  rcases hh : (planBits x).head? with _ | a
  · simp
  · simp only [Option.getD_some]
    have ha : a ∈ planBits x := List.mem_of_mem_head? (by rw [hh]; rfl)
    exact le_of_lt (planBits_lt_32 ha)

theorem testBit_lt_tz32 {x i : Nat} (hi : i < tz32 x) : x.testBit i = false := by
  rcases hb : x.testBit i with _ | _
  · rfl
  exfalso
  have h32 := tz32_le_32 x
  have hi32 : i < 32 := by omega
  have him : i ∈ planBits x := mem_planBits hi32 hb
  rcases hL : planBits x with _ | ⟨h0, rest⟩
  · rw [hL] at him
    cases him
  · have htz : tz32 x = h0 := by rw [tz32_eq_head, hL]; rfl
    have hsort := planBits_sorted x
    rw [hL] at hsort him
    rcases List.mem_cons.mp him with he | ht
    · omega
    · have := (List.pairwise_cons.mp hsort).1 i ht
      omega

theorem low_bits_mod_zero {x t : Nat} (h : ∀ i, i < t → x.testBit i = false) :
    x % 2 ^ t = 0 := by
  apply Nat.eq_of_testBit_eq
  intro i
  rw [Nat.testBit_mod_two_pow, Nat.zero_testBit]
  rcases Nat.lt_or_ge i t with hi | hi
  · simp [h i hi]
  · simp [Nat.not_lt.mpr hi]

theorem kmask0_testBit {plan : Nat} (h0 : plan ≠ 0) :
    ∀ i, i < tz32 plan → ((plan - 1) &&& not32 plan).testBit i = true := by
  intro i hi
  have ht32 := tz32_le_32 plan
  have hmod : plan % 2 ^ tz32 plan = 0 :=
    low_bits_mod_zero (fun j hj => testBit_lt_tz32 hj)
  obtain ⟨q, hq⟩ : ∃ q, plan = 2 ^ tz32 plan * q :=
    ⟨plan / 2 ^ tz32 plan, by
      conv_lhs => rw [← Nat.div_add_mod plan (2 ^ tz32 plan)]
      rw [hmod, Nat.add_zero]⟩
  rcases q with _ | q
  · rw [Nat.mul_zero] at hq
    exact absurd hq h0
  · have hpow : 1 ≤ 2 ^ tz32 plan := Nat.one_le_two_pow
    have hrw : plan - 1 = 2 ^ tz32 plan - 1 + 2 ^ tz32 plan * q := by
      have key : ∀ B A : Nat, 1 ≤ B → B * (A + 1) - 1 = B - 1 + B * A := by
        intro B A hB
        rw [Nat.mul_succ]
        generalize B * A = C
        omega
      conv_lhs => rw [hq]
      exact key _ _ hpow
    have htb : (plan - 1).testBit i = true := by
      have h2 : (plan - 1) % 2 ^ tz32 plan = 2 ^ tz32 plan - 1 := by
        rw [hrw, Nat.add_mul_mod_self_left]
        exact Nat.mod_eq_of_lt (by omega)
      have h3 : (2 ^ tz32 plan - 1).testBit i
          = (decide (i < tz32 plan) && (plan - 1).testBit i) := by
        rw [← h2]
        exact Nat.testBit_mod_two_pow _ _ _
      rw [Nat.testBit_two_pow_sub_one, decide_eq_true hi] at h3
      simpa using h3.symm
    have hnb : (not32 plan).testBit i = true := by
      unfold not32
      rw [Nat.testBit_xor, testBit_lt_tz32 hi]
      rw [show U32M = 2 ^ 32 - 1 from rfl, Nat.testBit_two_pow_sub_one]
      rw [decide_eq_true (show i < 32 by omega)]
      rfl
    rw [Nat.testBit_land, htb, hnb]
    rfl

theorem two_pow_sub_testBit {a b : Nat} (hab : a ≤ b) (i : Nat) :
    (2 ^ b - 2 ^ a).testBit i = (decide (a ≤ i) && decide (i < b)) := by
  have he : 2 ^ b - 2 ^ a = (2 ^ (b - a) - 1) <<< a := by
    rw [Nat.shiftLeft_eq, Nat.sub_mul, Nat.one_mul, ← Nat.pow_add]
    rw [Nat.sub_add_cancel hab]
  rw [he, Nat.testBit_shiftLeft, Nat.testBit_two_pow_sub_one]
  by_cases h : a ≤ i
  · have hiff : (i - a < b - a) ↔ (i < b) := by omega
    simp [h, ge_iff_le, hiff]
  · simp [h, ge_iff_le]

theorem wneg32_shift {b : Nat} (hb : b < 32) : wneg32 (1 <<< b) = 2 ^ 32 - 2 ^ b := by
  unfold wneg32
  rw [Nat.shiftLeft_eq, Nat.one_mul]
  have h1 : 2 ^ b < U32 := by
    rw [show U32 = 2 ^ 32 from rfl]
    exact Nat.pow_lt_pow_right (by omega) hb
  rw [Nat.mod_eq_of_lt h1]
  have hpow : 1 ≤ 2 ^ b := Nat.one_le_two_pow
  have h2 : U32 - 2 ^ b < U32 := by
    rw [show U32 = 2 ^ 32 from rfl]
    have : 1 ≤ (2 : Nat) ^ 32 := Nat.one_le_two_pow
    omega
  rw [Nat.mod_eq_of_lt h2]
  rfl

theorem wneg32_lt (x : Nat) : wneg32 x < U32 := by
  unfold wneg32
  exact Nat.mod_lt _ (by norm_num [U32])

theorem not32_lt {x : Nat} (hx : x < U32) : not32 x < U32 := by
  unfold not32
  rw [show U32 = 2 ^ 32 from rfl] at hx ⊢
  exact Nat.xor_lt_two_pow (by norm_num [U32M]) hx

theorem or_lt_U32 {x y : Nat} (hx : x < U32) (hy : y < U32) : x ||| y < U32 := by
  rw [show U32 = 2 ^ 32 from rfl] at hx hy ⊢
  exact Nat.or_lt_two_pow hx hy

theorem not32_U32M : not32 U32M = 0 := Nat.xor_self U32M

theorem kmask_full {kmask h : Nat} (hk : kmask < U32) (hh : h < 32)
    (hcov : ∀ i, i < h → kmask.testBit i = true) :
    kmask ||| wneg32 (1 <<< h) = U32M := by
  apply Nat.eq_of_testBit_eq
  intro i
  rw [Nat.testBit_lor, wneg32_shift hh]
  rw [show U32M = 2 ^ 32 - 1 from rfl, Nat.testBit_two_pow_sub_one]
  rw [two_pow_sub_testBit (by omega) i]
  rcases Nat.lt_or_ge i h with hi | hi
  · rw [hcov i hi, decide_eq_true (show i < 32 by omega)]
    rfl
  · rcases Nat.lt_or_ge i 32 with hi32 | hi32
    · rw [decide_eq_true hi, decide_eq_true hi32]
      simp
    · rw [testBit_ge32 hk hi32, decide_eq_false (show ¬(i < 32) by omega)]
      simp

theorem planBits_xor_top {x : Nat} (h0 : x ≠ 0) (hU : x < U32) :
    planBits (x ^^^ (1 <<< highBit x)) = (planBits x).dropLast := by
  have hne : planBits x ≠ [] := by
    intro hn
    have hb := testBit_log2 h0
    have hl32 := log2_lt_32 h0 hU
    have hmem : Nat.log2 x ∈ planBits x := mem_planBits hl32 hb
    rw [hn] at hmem
    cases hmem
  have hj : (planBits x).getLast hne = highBit x := by
    rw [highBit_eq_getLast, List.getLast?_eq_getLast _ hne]
    rfl
  have hjx : x.testBit (highBit x) = true :=
    planBits_testBit (by rw [← hj]; exact List.getLast_mem hne)
  have hstep : ∀ i ∈ List.range 32, (x ^^^ (1 <<< highBit x)).testBit i
      = (!(decide (i = highBit x)) && x.testBit i) := by
    intro i _
    rw [Nat.shiftLeft_eq, Nat.one_mul, Nat.testBit_xor, Nat.testBit_two_pow]
    by_cases hij : i = highBit x
    · subst hij
      rw [hjx, decide_eq_true rfl]
      simp
    · rw [decide_eq_false (fun h => hij h.symm), decide_eq_false hij]
      simp
  have hfil : planBits (x ^^^ (1 <<< highBit x))
      = (planBits x).filter (fun i => !(decide (i = highBit x))) := by
    unfold planBits
    rw [List.filter_congr hstep, ← List.filter_filter]
  rw [hfil]
  have hsplit : planBits x = (planBits x).dropLast ++ [highBit x] := by
    conv_lhs => rw [← List.dropLast_concat_getLast hne]
    rw [hj]
  have hsort := planBits_sorted x
  rw [hsplit] at hsort
  rw [hsplit, List.dropLast_concat, List.filter_append]
  have hlast : ([highBit x].filter (fun i => !(decide (i = highBit x)))) = [] := by
    simp
  rw [hlast, List.append_nil]
  apply List.filter_eq_self.mpr
  intro a ha
  have := (List.pairwise_append.mp hsort).2.2 a ha (highBit x) (by simp)
  simp
  omega

end QueryBitLemmas

section BsearchLemmas

variable {α V : Type}

theorem takeWhile_len_le (p : α → Bool) : ∀ l : List α, (l.takeWhile p).length ≤ l.length := by
  intro l
  induction l with
  | nil => simp
  | cons a t ih =>
    rw [List.takeWhile_cons]
    by_cases hp : p a = true
    · rw [if_pos hp]
      simp only [List.length_cons]
      omega
    · rw [if_neg hp]
      simp

theorem takeWhile_next (p : α → Bool) :
    ∀ (l : List α) (a : α), l[(l.takeWhile p).length]? = some a → p a = false := by
  intro l
  induction l with
  | nil => intro a h; cases h
  | cons b bs ih =>
    intro a h
    rw [List.takeWhile_cons] at h
    by_cases hp : p b = true
    · rw [if_pos hp, List.length_cons, List.getElem?_cons_succ] at h
      exact ih a h
    · rw [if_neg hp] at h
      simp only [List.length_nil, List.getElem?_cons_zero] at h
      rw [← Option.some.inj h]
      simpa using hp

/-- On a table whose first lower bound is `0`, `bsearch` never panics: it
returns a response from the table or `None` (more bits needed). -/
theorem bsearchQ_cases (v0 : V) (rest : List (Locator × V)) (low high : Nat) :
    (∃ e ∈ (((0 : Locator), v0) :: rest),
      bsearchQ ((0, v0) :: rest) low high = BRes.found e.2) ∨
    bsearchQ ((0, v0) :: rest) low high = BRes.ambig := by
  have htw : (((0 : Locator), v0) :: rest).takeWhile (fun e => decide (e.1 ≤ low))
      = (0, v0) :: rest.takeWhile (fun e => decide (e.1 ≤ low)) := by
    rw [List.takeWhile_cons]
    simp
  unfold bsearchQ
  simp only [htw, List.length_cons]
  rw [if_neg (Nat.succ_ne_zero _)]
  rw [show (rest.takeWhile (fun e => decide (e.1 ≤ low))).length + 1 - 1
      = (rest.takeWhile (fun e => decide (e.1 ≤ low))).length from rfl]
  have hlt : (rest.takeWhile (fun e => decide (e.1 ≤ low))).length
      < (((0 : Locator), v0) :: rest).length := by
    rw [List.length_cons]
    have := takeWhile_len_le (fun e : Locator × V => decide (e.1 ≤ low)) rest
    omega
  rw [List.getElem?_eq_getElem hlt]
  rcases h2 : (((0 : Locator), v0) :: rest)[(rest.takeWhile
      (fun e => decide (e.1 ≤ low))).length + 1]? with _ | e2
  · left
    exact ⟨_, List.getElem_mem hlt, rfl⟩
  · by_cases hgt : e2.1 > high
    · left
      exact ⟨_, List.getElem_mem hlt, if_pos hgt⟩
    · right
      exact if_neg hgt

/-- With `low = high`, `bsearch` on a table starting at `0` always resolves. -/
theorem bsearchQ_self (v0 : V) (rest : List (Locator × V)) (x : Nat) :
    ∃ e ∈ (((0 : Locator), v0) :: rest),
      bsearchQ ((0, v0) :: rest) x x = BRes.found e.2 := by
  have htw : (((0 : Locator), v0) :: rest).takeWhile (fun e => decide (e.1 ≤ x))
      = (0, v0) :: rest.takeWhile (fun e => decide (e.1 ≤ x)) := by
    rw [List.takeWhile_cons]
    simp
  unfold bsearchQ
  simp only [htw, List.length_cons]
  rw [if_neg (Nat.succ_ne_zero _)]
  rw [show (rest.takeWhile (fun e => decide (e.1 ≤ x))).length + 1 - 1
      = (rest.takeWhile (fun e => decide (e.1 ≤ x))).length from rfl]
  have hlt : (rest.takeWhile (fun e => decide (e.1 ≤ x))).length
      < (((0 : Locator), v0) :: rest).length := by
    rw [List.length_cons]
    have := takeWhile_len_le (fun e : Locator × V => decide (e.1 ≤ x)) rest
    omega
  rw [List.getElem?_eq_getElem hlt]
  rcases h2 : (((0 : Locator), v0) :: rest)[(rest.takeWhile
      (fun e => decide (e.1 ≤ x))).length + 1]? with _ | e2
  · exact ⟨_, List.getElem_mem hlt, rfl⟩
  · have hnext : decide (e2.1 ≤ x) = false := by
      apply takeWhile_next (fun e : Locator × V => decide (e.1 ≤ x)) ((0, v0) :: rest) e2
      rw [htw, List.length_cons]
      exact h2
    have hgt : e2.1 > x := by
      rcases Nat.lt_or_ge x e2.1 with h | h
      · exact h
      · exfalso
        rw [decide_eq_true (show e2.1 ≤ x from h)] at hnext
        cases hnext
    exact ⟨_, List.getElem_mem hlt, if_pos hgt⟩

end BsearchLemmas

section QueryRunLemmas

variable {K V : Type}

/-- The phase walk of `query` resolves as soon as one processed pair fills the
known mask; the mask only grows, so it suffices that some listed pair (not
skipped by the heuristic test) completes the current mask below its bit. -/
theorem queryLoop_found (v0 : V) (rest0 : List (Locator × V))
    (fs : List (K → Nat)) (nph : Nat) (k : K) :
    ∀ (pairs : List (Nat × Nat)) (loc kmask : Nat), kmask < U32 →
    (∃ pr ∈ pairs, pr.1 + 2 ≠ nph ∧ pr.2 < 32 ∧ ∀ i, i < pr.2 → kmask.testBit i = true) →
    ∃ e ∈ (((0 : Locator), v0) :: rest0),
      queryLoop ((0, v0) :: rest0) fs nph k pairs loc kmask = some e.2 := by
  intro pairs
  induction pairs with
  | nil =>
    intro loc kmask _ hex
    rcases hex with ⟨pr, hpr, _⟩
    cases hpr
  | cons ph rest ih =>
    intro loc kmask hkU hex
    obtain ⟨p, h⟩ := ph
    by_cases hskip : p + 2 = nph
    · simp only [queryLoop]
      rw [if_pos hskip]
      apply ih loc kmask hkU
      rcases hex with ⟨pr, hpr, hne, hlt, hcov⟩
      rcases List.mem_cons.mp hpr with he | ht
      · exfalso
        rw [he] at hne
        exact hne hskip
      · exact ⟨pr, ht, hne, hlt, hcov⟩
    · rcases hex with ⟨pr, hpr, hne, hlt, hcov⟩
      have hk2U : kmask ||| wneg32 (1 <<< h) < U32 := or_lt_U32 hkU (wneg32_lt _)
      rcases List.mem_cons.mp hpr with he | ht
      · subst he
        have hfull : kmask ||| wneg32 (1 <<< h) = U32M := kmask_full hkU hlt hcov
        simp only [queryLoop]
        rw [if_neg hskip, hfull, not32_U32M, Nat.or_zero]
        obtain ⟨e, he2, heq⟩ := bsearchQ_self v0 rest0
          (loc ||| (((fs.getD p (fun _ => 0)) k % U32) <<< h) % U32)
        exact ⟨e, he2, by rw [heq]⟩
      · simp only [queryLoop]
        rw [if_neg hskip]
        rcases bsearchQ_cases v0 rest0
            (loc ||| (((fs.getD p (fun _ => 0)) k % U32) <<< h) % U32)
            ((loc ||| (((fs.getD p (fun _ => 0)) k % U32) <<< h) % U32)
              ||| not32 (kmask ||| wneg32 (1 <<< h))) with ⟨e, he2, heq⟩ | heq
        · exact ⟨e, he2, by rw [heq]⟩
        · rw [heq]
          apply ih _ _ hk2U
          refine ⟨pr, ht, hne, hlt, ?_⟩
          intro i hi
          rw [Nat.testBit_lor, hcov i hi]
          rfl

/-- The core of C3: on any map whose response table starts at locator `0`,
whose plan fits `u32`, and whose core count matches the plan popcount (all
invariants of `build`), every query resolves to a stored response. -/
theorem query_resp (m : CompressedMap V) (fs : List (K → Nat)) (k : K)
    (v0 : V) (rest : List (Locator × V)) (hrm : m.response_map = (0, v0) :: rest)
    (hplan : m.plan < U32) (hcore : m.core.length = popcount32 m.plan) :
    ∃ e ∈ m.response_map, query m fs k = some e.2 := by
  unfold query
  dsimp only
  rw [hrm]
  by_cases hp0 : m.plan = 0
  · rw [if_pos hp0]
    exact ⟨(0, v0), by simp, by rw [List.getElem?_cons_zero, Option.map_some']⟩
  · rw [if_neg hp0]
    have hpc1 : 1 ≤ popcount32 m.plan := popcount32_pos hp0 hplan
    have hLlen : (planBits m.plan).length = popcount32 m.plan := planBits_length m.plan
    have hk0U : (m.plan - 1) &&& not32 m.plan < U32 :=
      lt_of_le_of_lt Nat.and_le_right (not32_lt hplan)
    have hk0cov := kmask0_testBit hp0
    by_cases h2nph : 2 ≤ m.core.length
    · rw [if_pos h2nph]
      rcases bsearchQ_cases v0 rest
          ((((fs.getD (m.core.length - 2) (fun _ => 0)) k % U32)
            <<< highBit (m.plan ^^^ (1 <<< highBit m.plan))) % U32)
          (((((fs.getD (m.core.length - 2) (fun _ => 0)) k % U32)
            <<< highBit (m.plan ^^^ (1 <<< highBit m.plan))) % U32)
            ||| not32 ((m.plan - 1) &&& not32 m.plan
              ||| ((1 <<< highBit m.plan)
                - (1 <<< highBit (m.plan ^^^ (1 <<< highBit m.plan))))))
          with ⟨e, he2, heq⟩ | heq
      · exact ⟨e, he2, by rw [heq]⟩
      · rw [heq]
        have hhbU : (1 <<< highBit m.plan) - (1 <<< highBit (m.plan ^^^ (1 <<< highBit m.plan)))
            < U32 := by
          apply lt_of_le_of_lt (Nat.sub_le _ _)
          rw [Nat.shiftLeft_eq, Nat.one_mul, show U32 = 2 ^ 32 from rfl]
          exact Nat.pow_lt_pow_right (by omega) (highBit_lt_32 m.plan)
        have hk1U : (m.plan - 1) &&& not32 m.plan
            ||| ((1 <<< highBit m.plan)
              - (1 <<< highBit (m.plan ^^^ (1 <<< highBit m.plan)))) < U32 :=
          or_lt_U32 hk0U hhbU
        apply queryLoop_found v0 rest fs m.core.length k _ _ _ hk1U
        rcases Nat.lt_or_ge m.core.length 3 with h3 | h3
        · -- exactly two phases: the processed pair is the top bit
          have hc2 : m.core.length = 2 := by omega
          have hL2 : (planBits m.plan).length = 2 := by rw [hLlen, ← hcore, hc2]
          obtain ⟨b0, b1, hL⟩ := List.length_eq_two.mp hL2
          have hb01 : b0 < b1 := by
            have := planBits_sorted m.plan
            rw [hL] at this
            exact (List.pairwise_cons.mp this).1 b1 (by simp)
          have hb1m : b1 ∈ planBits m.plan := by rw [hL]; simp
          have hb1lt := planBits_lt_32 hb1m
          have hhb : highBit m.plan = b1 := by
            rw [highBit_eq_getLast, hL]
            rfl
          have htz : tz32 m.plan = b0 := by
            rw [tz32_eq_head, hL]
            rfl
          have hh2 : highBit (m.plan ^^^ (1 <<< highBit m.plan)) = b0 := by
            rw [highBit_eq_getLast, planBits_xor_top hp0 hplan, hL]
            rfl
          refine ⟨(1, b1), ?_, by omega, hb1lt, ?_⟩
          · rw [List.mem_reverse, hc2, hL]
            rw [show List.range 2 = [0, 1] from rfl]
            simp
          · intro i hi
            rw [Nat.testBit_lor]
            rcases Nat.lt_or_ge i b0 with hib | hib
            · rw [hk0cov i (htz ▸ hib)]
              rfl
            · have hsb : ((1 <<< highBit m.plan)
                  - (1 <<< highBit (m.plan ^^^ (1 <<< highBit m.plan)))).testBit i = true := by
                rw [hh2, hhb, Nat.shiftLeft_eq, Nat.one_mul, Nat.shiftLeft_eq, Nat.one_mul]
                rw [two_pow_sub_testBit (le_of_lt hb01) i]
                rw [decide_eq_true hib, decide_eq_true hi]
                rfl
              rw [hsb]
              simp
        · -- three or more phases: the lowest plan bit is processed last
          obtain ⟨b0, L2, hL⟩ : ∃ b0 L2, planBits m.plan = b0 :: L2 := by
            rcases hI : planBits m.plan with _ | ⟨a, b⟩
            · exfalso
              rw [hI] at hLlen
              simp at hLlen
              omega
            · exact ⟨a, b, rfl⟩
          have hb0m : b0 ∈ planBits m.plan := by rw [hL]; simp
          have hb0lt := planBits_lt_32 hb0m
          have htz : tz32 m.plan = b0 := by
            rw [tz32_eq_head, hL]
            rfl
          refine ⟨(0, b0), ?_, by omega, hb0lt, ?_⟩
          · rw [List.mem_reverse]
            rw [show m.core.length = (m.core.length - 1) + 1 from by omega,
              List.range_succ_eq_map, hL]
            simp
          · intro i hi
            rw [Nat.testBit_lor, hk0cov i (htz ▸ hi)]
            rfl
    · -- a single phase
      rw [if_neg h2nph]
      have hc1 : m.core.length = 1 := by omega
      have hL1 : (planBits m.plan).length = 1 := by rw [hLlen, ← hcore, hc1]
      obtain ⟨b0, hL⟩ := List.length_eq_one.mp hL1
      have hb0m : b0 ∈ planBits m.plan := by rw [hL]; simp
      have hb0lt := planBits_lt_32 hb0m
      have htz : tz32 m.plan = b0 := by
        rw [tz32_eq_head, hL]
        rfl
      apply queryLoop_found v0 rest fs m.core.length k _ _ _ hk0U
      refine ⟨(0, b0), ?_, by omega, hb0lt, ?_⟩
      · rw [List.mem_reverse, hc1, hL]
        rw [show List.range 1 = [0] from rfl]
        simp
      · intro i hi
        exact hk0cov i (htz ▸ hi)

end QueryRunLemmas

section BuildShapeLemmas

variable {K V : Type} [DecidableEq K] [LinearOrder V]

/-- Each successful phase appends exactly one core. -/
theorem runPhases_cores_len (ub : UniformBuilder K) (opts : BuildOptions) (pr : Prep K V) :
    ∀ (ps : List Nat) (st st2 : PhaseState K),
      runPhases ub opts pr ps st = some st2 →
      st2.cores.length = st.cores.length + ps.length := by
  intro ps
  induction ps with
  | nil =>
    intro st st2 h
    simp only [runPhases] at h
    rw [← Option.some.inj h]
    simp
  | cons p rest ih =>
    intro st st2 h
    simp only [runPhases] at h
    rcases hps : phaseStep ub opts pr st p with _ | st1
    · rw [hps] at h
      cases h
    · rw [hps] at h
      have hrec := ih st1 st2 h
      have hone : st1.cores.length = st.cores.length + 1 := by
        unfold phaseStep at hps
        rcases hu : ub (participants pr p st.cv) (phaseOptions opts pr st p) with _ | r
        · rw [hu] at hps
          cases hps
        · rw [hu, Option.map_some'] at hps
          rw [← Option.some.inj hps]
          simp [phaseApply]
      rw [hrec, hone, List.length_cons]
      omega

theorem planAcc_lt : ∀ (items : List (V × Nat × Nat)) (p : Nat), p < U32 →
    (∀ it ∈ items, it.2.1 < U32) → planAcc items p < U32 := by
  intro items
  induction items with
  | nil =>
    intro p hp _
    exact hp
  | cons it rest ih =>
    intro p hp hub
    obtain ⟨k0, w, c⟩ := it
    simp only [planAcc]
    apply ih
    · apply or_lt_U32 hp
      unfold bitOf
      by_cases hw : w &&& (w - 1) = 0
      · rw [if_pos hw]
        exact hub (k0, w, c) (by simp)
      · rw [if_neg hw]
        rw [Nat.shiftLeft_eq, Nat.one_mul, show U32 = 2 ^ 32 from rfl]
        exact Nat.pow_lt_pow_right (by omega) (highBit_lt_32 w)
    · intro x hx
      exact hub x (by simp [hx])

end BuildShapeLemmas

/-! ## Claim C3 -/

section C3Claim

variable {K V : Type} [DecidableEq K] [LinearOrder V]

/-- C3: for every map `build` produces from a non-empty input (of at most
`2^32` pairs) and every key — also keys outside the input — `query` returns a
value stored in the response table: it never panics in `bsearch` and never
reaches the `unreachable!` fall-through after the phase loop. -/
theorem C3_query_total (ub : UniformBuilder K) (l : List (K × V)) (opts : BuildOptions)
    (m : CompressedMap V) (fs : List (K → Nat)) (tn : Nat)
    (hlen : l.length ≤ U32) (hb : build ub l opts = some (m, fs, tn)) (k : K) :
    inResp m (query m fs k) = true := by
  rcases build_inv ub l opts m fs tn hb with ⟨c, hcl, hm, hfs, htn⟩ | ⟨hlen2, st, hrun, hm, hfs, htn⟩
  · subst hm
    subst hfs
    simp [query, inResp]
  · subst hm
    subst hfs
    have hsum : ((countsList l).map (·.2)).sum ≤ U32 := by
      rw [countsList_sum]
      exact hlen
    have wf := widthFacts_of (countsList l) hlen2 (countsList_pos l) hsum
    obtain ⟨it0, irest, hitems⟩ : ∃ it0 irest, items3Of (countsList l) = it0 :: irest := by
      rcases hI : items3Of (countsList l) with _ | ⟨a, b⟩
      · exfalso
        have := wf.len
        rw [hI] at this
        simp at this
        omega
      · exact ⟨a, b, rfl⟩
    obtain ⟨k0, w0, c0⟩ := it0
    have hplanU : (prep l).plan < U32 := by
      rw [prep_plan, formulatePlan_eq _ hlen2]
      exact planAcc_lt _ 0 (by norm_num [U32]) wf.w_ub
    have hrm : ((⟨(prep l).plan, (prep l).resp,
        (st.saltAcc.drop 1).take ((prep l).nphases - 1), st.cores⟩ :
        CompressedMap V)).response_map
        = ((0 : Locator), k0) :: respList irest ((0 + w0) % U32) := by
      show (prep l).resp = _
      rw [prep_resp, formulatePlan_eq _ hlen2, hitems]
      rfl
    have hcores : st.cores.length = popcount32 (prep l).plan := by
      have := runPhases_cores_len ub opts (prep l) (List.range (prep l).nphases) _ _ hrun
      rw [this, List.length_range]
      simp [prep_nphases]
    obtain ⟨e, he, heq⟩ := query_resp
      (⟨(prep l).plan, (prep l).resp,
        (st.saltAcc.drop 1).take ((prep l).nphases - 1), st.cores⟩ : CompressedMap V)
      st.fs k k0 (respList irest ((0 + w0) % U32)) hrm hplanU hcores
    rw [heq]
    simp only [inResp]
    exact List.any_eq_true.mpr ⟨e, he, by simp⟩

/-- Closed instance of C3: a three-pair build queried at a key outside the
input. -/
theorem C3_witness :
    inResp ((build (ubModel 1 ckModel) [((20 : Nat), (5 : Nat)), (21, 6)]
        opts0).getD (⟨0, [], [], []⟩, [], 0)).1
      (query ((build (ubModel 1 ckModel) [((20 : Nat), (5 : Nat)), (21, 6)]
          opts0).getD (⟨0, [], [], []⟩, [], 0)).1
        ((build (ubModel 1 ckModel) [((20 : Nat), (5 : Nat)), (21, 6)]
          opts0).getD (⟨0, [], [], []⟩, [], 0)).2.1 99) = true := by
  rcases hb : build (ubModel 1 ckModel) [((20 : Nat), (5 : Nat)), (21, 6)] opts0
    with _ | ⟨m, fs, tn⟩
  · have hs : (build (ubModel 1 ckModel) [((20 : Nat), (5 : Nat)), (21, 6)]
        opts0).isSome = true := by decide
    rw [hb] at hs
    cases hs
  · simp only [Option.getD_some]
    exact C3_query_total (ubModel 1 ckModel) _ opts0 m fs tn (by decide) hb 99

end C3Claim

/-! ## Codec inversion lemmas -/

section CodecLemmas

variable {V : Type}

theorem readN_eq_some {n : Nat} {bs : List Nat} {p : List Nat × List Nat}
    (h : readN n bs = some p) : p.1 = bs.take n ∧ p.2 = bs.drop n ∧ n ≤ bs.length := by
  by_cases hle : n ≤ bs.length
  · unfold readN at h
    rw [if_pos hle] at h
    have he := Option.some.inj h
    exact ⟨(congrArg Prod.fst he).symm, (congrArg Prod.snd he).symm, hle⟩
  · unfold readN at h
    rw [if_neg hle] at h
    cases h

theorem decodeResponses_len (decV : List Nat → Option (V × List Nat)) :
    ∀ (n : Nat) (bs : List Nat) (q : List V × List Nat),
      decodeResponses decV n bs = some q → q.1.length = n := by
  intro n
  induction n with
  | zero =>
    intro bs q h
    simp only [decodeResponses] at h
    rw [← Option.some.inj h]
    rfl
  | succ n ih =>
    intro bs q h
    simp only [decodeResponses, Option.bind_eq_some] at h
    obtain ⟨p, hp, h2⟩ := h
    simp only [Option.map_eq_some'] at h2
    obtain ⟨t, ht, hft⟩ := h2
    have hrec := ih p.2 t ht
    rw [← hft, List.length_cons, hrec]

/-- `respMapLoop` (with one more response than log entries) produces a table
whose lower bounds start at the initial total, increase strictly, and stay
within `u32`. -/
theorem respMapLoop_facts : ∀ (rs : List V) (lgs : List Nat) (total : Nat)
    (rm : List (Locator × V)), rs.length ≤ lgs.length + 1 → total ≤ U32M →
    respMapLoop lgs rs total = some rm →
    ((rs ≠ [] → (rm.map (·.1)).head? = some total) ∧
     List.Chain' (· < ·) (rm.map (·.1)) ∧
     ∀ lo ∈ rm.map (·.1), total ≤ lo ∧ lo ≤ U32M) := by
  intro rs
  induction rs with
  | nil =>
    intro lgs total rm _ htot h
    have hrm : rm = [] := by
      cases lgs <;> simp only [respMapLoop] at h <;> exact (Option.some.inj h).symm
    subst hrm
    exact ⟨fun hc => absurd rfl hc, by simp, by simp⟩
  | cons r rs' ih =>
    intro lgs total rm hlen htot h
    cases lgs with
    | nil =>
      simp only [List.length_cons, List.length_nil] at hlen
      have hrs' : rs' = [] := List.length_eq_zero.mp (by omega)
      subst hrs'
      simp only [respMapLoop, Option.map_eq_some'] at h
      obtain ⟨t, ht, hft⟩ := h
      have htnil : t = [] := (Option.some.inj ht).symm
      subst htnil
      rw [← hft]
      refine ⟨fun _ => rfl, by simp, ?_⟩
      intro lo hlo
      have : lo = total := by simpa using hlo
      omega
    | cons lg lgs' =>
      simp only [respMapLoop] at h
      by_cases hbad : lg = 0 ∨ lg > 32
      · rw [if_pos hbad] at h
        cases h
      · rw [if_neg hbad] at h
        by_cases hov : total + 1 <<< (32 - lg) > U32M
        · rw [if_pos hov] at h
          cases h
        · rw [if_neg hov] at h
          simp only [Option.map_eq_some'] at h
          obtain ⟨t, ht, hft⟩ := h
          have hrrpos : 1 ≤ 1 <<< (32 - lg) := by
            rw [Nat.shiftLeft_eq, Nat.one_mul]
            exact Nat.one_le_two_pow
          have hrec := ih lgs' (total + 1 <<< (32 - lg)) t
            (by simp only [List.length_cons] at hlen ⊢; omega) (by omega) ht
          rw [← hft]
          have hmc : (((total, r) :: t).map (fun e => e.1)) = total :: t.map (fun e => e.1) :=
            rfl
          refine ⟨fun _ => rfl, ?_, ?_⟩
          · rw [hmc]
            apply List.chain'_cons'.mpr
            refine ⟨?_, hrec.2.1⟩
            intro b hb
            rcases rs' with _ | ⟨r2, rs''⟩
            · have htnil : t = [] := by
                cases lgs' <;> simp only [respMapLoop] at ht <;>
                  exact (Option.some.inj ht).symm
              subst htnil
              exact absurd hb (by simp)
            · have hh := hrec.1 (by simp)
              rw [Option.mem_def, hh] at hb
              have hbe : b = total + 1 <<< (32 - lg) := (Option.some.inj hb).symm
              exact hbe ▸ (show total < total + 1 <<< (32 - lg) by omega)
          · intro lo hlo
            rw [hmc] at hlo
            rcases List.mem_cons.mp hlo with he | ht2
            · subst he
              omega
            · have := hrec.2.2 lo ht2
              omega

/-- An out-of-range log-widths entry (0 or above 32) fails the decode. -/
theorem respMapLoop_bad : ∀ (lgs : List Nat) (rs : List V) (total : Nat),
    lgs.length < rs.length → (∃ lg ∈ lgs, lg = 0 ∨ 32 < lg) →
    respMapLoop lgs rs total = none := by
  intro lgs
  induction lgs with
  | nil =>
    intro rs total _ hex
    rcases hex with ⟨lg, hm, _⟩
    cases hm
  | cons lg lgs' ih =>
    intro rs total hlen hex
    rcases rs with _ | ⟨r, rs'⟩
    · simp at hlen
    · simp only [respMapLoop]
      by_cases hbad : lg = 0 ∨ lg > 32
      · rw [if_pos hbad]
      · rw [if_neg hbad]
        by_cases hov : total + 1 <<< (32 - lg) > U32M
        · rw [if_pos hov]
        · rw [if_neg hov]
          rcases hex with ⟨lg2, hm, hb2⟩
          rcases List.mem_cons.mp hm with he | ht
          · exfalso
            subst he
            exact hbad hb2
          · rw [ih rs' (total + 1 <<< (32 - lg))
              (by simp only [List.length_cons] at hlen ⊢; omega) ⟨lg2, ht, hb2⟩]
            rfl

/-- A width total running past `2^32 - 1` fails the decode (`checked_add`). -/
theorem respMapLoop_overflow : ∀ (lgs : List Nat) (rs : List V) (total : Nat),
    lgs.length < rs.length → total ≤ U32M → (∀ lg ∈ lgs, 1 ≤ lg ∧ lg ≤ 32) →
    U32M < total + ((lgs.map (fun lg => 1 <<< (32 - lg))).sum) →
    respMapLoop lgs rs total = none := by
  intro lgs
  induction lgs with
  | nil =>
    intro rs total _ htot _ hov
    simp only [List.map_nil, List.sum_nil, Nat.add_zero] at hov
    omega
  | cons lg lgs' ih =>
    intro rs total hlen htot hrange hov
    rcases rs with _ | ⟨r, rs'⟩
    · simp at hlen
    · simp only [respMapLoop]
      by_cases hbad : lg = 0 ∨ lg > 32
      · rw [if_pos hbad]
      · rw [if_neg hbad]
        by_cases hovs : total + 1 <<< (32 - lg) > U32M
        · rw [if_pos hovs]
        · rw [if_neg hovs]
          rw [ih rs' (total + 1 <<< (32 - lg))
            (by simp only [List.length_cons] at hlen ⊢; omega) (by omega)
            (fun x hx => hrange x (by simp [hx]))
            (by simp only [List.map_cons, List.sum_cons] at hov; omega)]
          rfl

/-- Every decoded per-phase block count is at least 2. -/
theorem decodeNblocks_ge2 : ∀ (n : Nat) (bs : List Nat) (q : List Nat × List Nat),
    decodeNblocks n bs = some q → ∀ x ∈ q.1, 2 ≤ x := by
  intro n
  induction n with
  | zero =>
    intro bs q h x hx
    simp only [decodeNblocks] at h
    rw [← Option.some.inj h] at hx
    cases hx
  | succ n ih =>
    intro bs q h x hx
    simp only [decodeNblocks, Option.bind_eq_some] at h
    obtain ⟨p, hp, h2⟩ := h
    by_cases hlt : p.1 < 2
    · rw [if_pos hlt] at h2
      cases h2
    · rw [if_neg hlt] at h2
      simp only [Option.map_eq_some'] at h2
      obtain ⟨t, ht, hft⟩ := h2
      rw [← hft] at hx
      rcases List.mem_cons.mp hx with he | ht2
      · subst he
        omega
      · exact ih p.2 t ht x ht2

/-- The block counts of decoded cores come from the decoded `nblocks` list. -/
theorem decodeCores_nb (bsz : Nat) (ck : List Nat → Nat → List Nat) (salt : List Nat) :
    ∀ (nbs : List Nat) (curPlan : Nat) (hash : List Nat) (phase : Nat) (bs : List Nat)
      (q : List MapCore × List Nat),
      decodeCores bsz ck salt nbs curPlan hash phase bs = some q →
      ∀ c ∈ q.1, c.nblocks ∈ nbs := by
  intro nbs
  induction nbs with
  | nil =>
    intro curPlan hash phase bs q h c hc
    simp only [decodeCores] at h
    rw [← Option.some.inj h] at hc
    cases hc
  | cons nb nbs' ih =>
    intro curPlan hash phase bs q h c hc
    simp only [decodeCores] at h
    by_cases h1 : nb * bsz > USIZE_MAX
    · rw [if_pos h1] at h
      cases h
    · rw [if_neg h1] at h
      by_cases h2 : nb * bsz * (tz32 (curPlan &&& (curPlan - 1)) - tz32 curPlan) > USIZE_MAX
      · rw [if_pos h2] at h
        cases h
      · rw [if_neg h2] at h
        rcases hrd : readN (nb * bsz * (tz32 (curPlan &&& (curPlan - 1)) - tz32 curPlan)) bs
            with _ | ⟨blk, bs2⟩
        · rw [hrd] at h
          cases h
        · rw [hrd] at h
          simp only [Option.map_eq_some'] at h
          obtain ⟨t, ht, hft⟩ := h
          rw [← hft] at hc
          rcases List.mem_cons.mp hc with he | ht2
          · subst he
            simp
          · exact List.mem_cons_of_mem _ (ih _ _ _ _ _ ht c ht2)

/-- Success inversion of `decodeMap`: every decoded map passed the magic
check, its response table starts at 0 and is strictly increasing within
`u32`, and every core has at least two blocks. -/
theorem decodeMap_inv (decV : List Nat → Option (V × List Nat))
    (ck : List Nat → Nat → List Nat) (bsz : Nat) (bytes : List Nat)
    (m : CompressedMap V) (rest : List Nat)
    (h : decodeMap decV ck bsz bytes = some (m, rest)) :
    bytes.take 4 = MAGIC ∧
    (m.response_map.map (·.1)).head? = some 0 ∧
    List.Chain' (· < ·) (m.response_map.map (·.1)) ∧
    (∀ lo ∈ m.response_map.map (·.1), lo ≤ U32M) ∧
    (∀ c ∈ m.core, 2 ≤ c.nblocks) := by
  unfold decodeMap at h
  simp only [Option.bind_eq_some] at h
  obtain ⟨mg, hmg, h⟩ := h
  by_cases hmag : mg.1 ≠ MAGIC
  · rw [if_pos hmag] at h
    cases h
  · rw [if_neg hmag] at h
    simp only [Option.bind_eq_some] at h
    obtain ⟨nlr, hnlr, logs, hlogs, resps, hresps, rmv, hrmv, hkp, hhk,
      plan, hplan, salt, hsalt, nbl, hnbl, hfin⟩ := h
    by_cases hcond : popcount32 plan.1 > 0 ∧ popcount32 plan.1 ≠ salt.1.length + 1
    · rw [if_pos hcond] at hfin
      cases hfin
    · rw [if_neg hcond] at hfin
      simp only [Option.map_eq_some'] at hfin
      obtain ⟨cores, hcores, hfq⟩ := hfin
      have hm : m = ⟨plan.1, rmv, salt.1, cores.1⟩ := (congrArg Prod.fst hfq).symm
      have hmagic : bytes.take 4 = MAGIC := by
        rw [← (readN_eq_some hmg).1]
        push_neg at hmag
        exact hmag
      have hlogslen : logs.1.length = nlr.1 := by
        rw [(readN_eq_some hlogs).1, List.length_take]
        exact Nat.min_eq_left (readN_eq_some hlogs).2.2
      have hrespslen : resps.1.length = nlr.1 + 1 := decodeResponses_len decV _ _ _ hresps
      have hfacts := respMapLoop_facts resps.1 logs.1 0 rmv
        (by omega) (Nat.zero_le _) hrmv
      have hrs_ne : resps.1 ≠ [] := by
        intro hn
        rw [hn] at hrespslen
        simp at hrespslen
      refine ⟨hmagic, ?_, ?_, ?_, ?_⟩
      · rw [hm]
        exact hfacts.1 hrs_ne
      · rw [hm]
        exact hfacts.2.1
      · rw [hm]
        intro lo hlo
        exact (hfacts.2.2 lo hlo).2
      · rw [hm]
        intro c hc
        have hnbmem := decodeCores_nb bsz ck salt.1 nbl.1 plan.1 hkp.1 0 nbl.2 cores hcores c hc
        exact decodeNblocks_ge2 _ _ _ hnbl c.nblocks hnbmem

end CodecLemmas

/-! ## Claim C8 -/

section C8Claim

variable {V : Type}

theorem decodeMap_magic_fail (decV : List Nat → Option (V × List Nat))
    (ck : List Nat → Nat → List Nat) (bsz : Nat) (bytes : List Nat)
    (hmag : bytes.take 4 ≠ MAGIC) : decodeMap decV ck bsz bytes = none := by
  unfold decodeMap
  rcases hr : readN 4 bytes with _ | mg
  · rfl
  · rw [Option.some_bind]
    have hq := readN_eq_some hr
    rw [if_pos (show mg.1 ≠ MAGIC by rw [hq.1]; exact hmag)]

/-- C8: the decoder validates its input: a wrong magic prefix fails; a
log-widths entry outside `[1, 32]` fails; a width total overflowing the
32-bit locator space fails (`checked_add`); every successfully decoded map
passed the magic check, has a strictly increasing response table starting at
0 inside `u32`, and at least two blocks per phase; and `read_from_file`
rejects trailing bytes after the decoded prefix. -/
theorem C8_decode_validation (decV : List Nat → Option (V × List Nat))
    (ck : List Nat → Nat → List Nat) (bsz : Nat) :
    (∀ bytes : List Nat, bytes.take 4 ≠ MAGIC → decodeMap decV ck bsz bytes = none) ∧
    (∀ (lgs : List Nat) (rs : List V) (total : Nat),
      lgs.length < rs.length → (∃ lg ∈ lgs, lg = 0 ∨ 32 < lg) →
      respMapLoop lgs rs total = none) ∧
    (∀ (lgs : List Nat) (rs : List V) (total : Nat),
      lgs.length < rs.length → total ≤ U32M → (∀ lg ∈ lgs, 1 ≤ lg ∧ lg ≤ 32) →
      U32M < total + ((lgs.map (fun lg => 1 <<< (32 - lg))).sum) →
      respMapLoop lgs rs total = none) ∧
    (∀ (bytes : List Nat) (m : CompressedMap V) (rest : List Nat),
      decodeMap decV ck bsz bytes = some (m, rest) →
      bytes.take 4 = MAGIC ∧
      (m.response_map.map (·.1)).head? = some 0 ∧
      List.Chain' (· < ·) (m.response_map.map (·.1)) ∧
      (∀ lo ∈ m.response_map.map (·.1), lo ≤ U32M) ∧
      (∀ c ∈ m.core, 2 ≤ c.nblocks)) ∧
    (∀ (bytes : List Nat) (m : CompressedMap V) (rest : List Nat),
      decodeMap decV ck bsz bytes = some (m, rest) → rest ≠ [] →
      readFromFileBytes decV ck bsz bytes = none) ∧
    (∀ (bytes : List Nat) (m : CompressedMap V),
      readFromFileBytes decV ck bsz bytes = some m →
      decodeMap decV ck bsz bytes = some (m, [])) := by
  refine ⟨decodeMap_magic_fail decV ck bsz, respMapLoop_bad, respMapLoop_overflow,
    decodeMap_inv decV ck bsz, ?_, ?_⟩
  · intro bytes m rest hdec hne
    unfold readFromFileBytes
    rw [hdec]
    dsimp only
    rw [if_pos (by
      rcases rest with _ | ⟨b, rest2⟩
      · exact absurd rfl hne
      · exact Nat.succ_pos _)]
  · intro bytes m h
    unfold readFromFileBytes at h
    rcases hdec : decodeMap decV ck bsz bytes with _ | p
    · rw [hdec] at h
      cases h
    · obtain ⟨m2, rest2⟩ := p
      rw [hdec] at h
      dsimp only at h
      by_cases hlen : rest2.length > 0
      · rw [if_pos hlen] at h
        cases h
      · rw [if_neg hlen] at h
        have hr2 : rest2 = [] := List.length_eq_zero.mp (by omega)
        rw [hr2, Option.some.inj h]

/-- Closed instance of C8: the all-zero prefix is not the magic, so decoding
it fails (for the one-byte value codec). -/
theorem C8_witness :
    decodeMap (fun bs => match bs with
      | [] => none
      | b :: rest2 => some ((b : Nat), rest2)) ckModel 1 [0, 0, 0, 0, 0] = none :=
  (C8_decode_validation (fun bs => match bs with
      | [] => none
      | b :: rest2 => some ((b : Nat), rest2)) ckModel 1).1 [0, 0, 0, 0, 0] (by decide)

end C8Claim

/-! ## Codec round-trip lemmas -/

section VarintLemmas

theorem readN_append (l bs : List Nat) : readN l.length (l ++ bs) = some (l, bs) := by
  unfold readN
  rw [if_pos (by simp)]
  rw [List.take_left, List.drop_left]

theorem readN_append2 (n : Nat) (l bs : List Nat) (h : l.length = n) :
    readN n (l ++ bs) = some (l, bs) := by
  subst h
  exact readN_append l bs

theorem leBytes_length (k v : Nat) : (leBytes k v).length = k := by
  simp [leBytes]

theorem leVal_leBytes : ∀ (k v : Nat), v < 256 ^ k → leVal (leBytes k v) = v := by
  intro k
  induction k with
  | zero =>
    intro v hv
    have hz : v = 0 := by simpa using hv
    subst hz
    rfl
  | succ k ih =>
    intro v hv
    have hstep : leBytes (k + 1) v = v % 256 :: leBytes k (v / 256) := by
      unfold leBytes
      rw [List.range_succ_eq_map, List.map_cons, List.map_map]
      congr 1
      · simp
      · apply List.map_congr_left
        intro i _
        show v / 256 ^ (Nat.succ i) % 256 = v / 256 / 256 ^ i % 256
        rw [Nat.div_div_eq_div_mul]
        rw [show (256 : Nat) * 256 ^ i = 256 ^ i.succ from by rw [Nat.pow_succ]; ring]
    rw [hstep]
    show v % 256 + 256 * leVal (leBytes k (v / 256)) = v
    rw [ih (v / 256) (by
      rw [Nat.pow_succ] at hv
      exact Nat.div_lt_of_lt_mul (by omega))]
    omega

theorem decVarint64_m251 (rest : List Nat) :
    decVarint64 (251 :: rest) = (readN 2 rest).map (fun p => (leVal p.1, p.2)) := rfl

theorem decVarint64_small {b : Nat} (rest : List Nat) (h : b < 251) :
    decVarint64 (b :: rest) = some (b, rest) := by
  unfold decVarint64
  split
  · rename_i heq
    cases heq
  · rename_i heq
    injection heq with h1 h2
    omega
  · rename_i heq
    injection heq with h1 h2
    omega
  · rename_i heq
    injection heq with h1 h2
    omega
  · rename_i b2 rest2 hne1 hne2 hne3 heq
    injection heq with h1 h2
    subst h1
    subst h2
    rw [if_pos h]

theorem decVarint64_rt (v : Nat) (extra : List Nat) (hv : v ≤ USIZE_MAX) :
    decVarint64 (encVarint v ++ extra) = some (v, extra) := by
  unfold encVarint
  by_cases h1 : v < 251
  · rw [if_pos h1, List.cons_append, List.nil_append]
    exact decVarint64_small extra h1
  · rw [if_neg h1]
    by_cases h2 : v < 65536
    · rw [if_pos h2, List.cons_append, decVarint64_m251]
      rw [readN_append2 2 _ _ (leBytes_length 2 v), Option.map_some']
      rw [leVal_leBytes 2 v (by norm_num; omega)]
    · rw [if_neg h2]
      by_cases h3 : v < U32
      · rw [if_pos h3, List.cons_append]
        rw [show decVarint64 (252 :: (leBytes 4 v ++ extra))
            = (readN 4 (leBytes 4 v ++ extra)).map (fun p => (leVal p.1, p.2)) from rfl]
        rw [readN_append2 4 _ _ (leBytes_length 4 v), Option.map_some']
        rw [leVal_leBytes 4 v (by norm_num [U32] at h3 ⊢; omega)]
      · rw [if_neg h3, List.cons_append]
        rw [show decVarint64 (253 :: (leBytes 8 v ++ extra))
            = (readN 8 (leBytes 8 v ++ extra)).map (fun p => (leVal p.1, p.2)) from rfl]
        rw [readN_append2 8 _ _ (leBytes_length 8 v), Option.map_some']
        rw [leVal_leBytes 8 v (by norm_num [USIZE_MAX] at hv ⊢; omega)]

theorem decVarint32_small {b : Nat} (rest : List Nat) (h : b < 251) :
    decVarint32 (b :: rest) = some (b, rest) := by
  unfold decVarint32
  split
  · rename_i heq
    cases heq
  · rename_i heq
    injection heq with h1 h2
    omega
  · rename_i heq
    injection heq with h1 h2
    omega
  · rename_i b2 rest2 hne1 hne2 heq
    injection heq with h1 h2
    subst h1
    subst h2
    rw [if_pos h]

theorem decVarint32_rt (v : Nat) (extra : List Nat) (hv : v < U32) :
    decVarint32 (encVarint v ++ extra) = some (v, extra) := by
  unfold encVarint
  by_cases h1 : v < 251
  · rw [if_pos h1, List.cons_append, List.nil_append]
    exact decVarint32_small extra h1
  · rw [if_neg h1]
    by_cases h2 : v < 65536
    · rw [if_pos h2, List.cons_append]
      rw [show decVarint32 (251 :: (leBytes 2 v ++ extra))
          = (readN 2 (leBytes 2 v ++ extra)).map (fun p => (leVal p.1, p.2)) from rfl]
      rw [readN_append2 2 _ _ (leBytes_length 2 v), Option.map_some']
      rw [leVal_leBytes 2 v (by norm_num; omega)]
    · rw [if_neg h2, if_pos hv, List.cons_append]
      rw [show decVarint32 (252 :: (leBytes 4 v ++ extra))
          = (readN 4 (leBytes 4 v ++ extra)).map (fun p => (leVal p.1, p.2)) from rfl]
      rw [readN_append2 4 _ _ (leBytes_length 4 v), Option.map_some']
      rw [leVal_leBytes 4 v (by norm_num [U32] at hv ⊢; omega)]

end VarintLemmas

section CodecRtLemmas

variable {V : Type}

theorem decodeResponses_rt (decV : List Nat → Option (V × List Nat))
    (encV : V → List Nat)
    (hcodec : ∀ (v : V) (bs : List Nat), decV (encV v ++ bs) = some (v, bs)) :
    ∀ (vs : List V) (extra : List Nat),
      decodeResponses decV vs.length ((vs.map encV).flatten ++ extra)
        = some (vs, extra) := by
  intro vs
  induction vs with
  | nil =>
    intro extra
    simp [decodeResponses]
  | cons v vs' ih =>
    intro extra
    rw [List.length_cons, List.map_cons, List.flatten_cons, List.append_assoc]
    simp only [decodeResponses]
    rw [hcodec v ((vs'.map encV).flatten ++ extra), Option.some_bind]
    rw [ih extra, Option.map_some']

theorem decodeNblocks_rt : ∀ (nbs : List Nat) (extra : List Nat),
    (∀ nb ∈ nbs, 2 ≤ nb ∧ nb ≤ USIZE_MAX) →
    decodeNblocks nbs.length ((nbs.map encVarint).flatten ++ extra) = some (nbs, extra) := by
  intro nbs
  induction nbs with
  | nil =>
    intro extra _
    simp [decodeNblocks]
  | cons nb nbs' ih =>
    intro extra hnb
    rw [List.length_cons, List.map_cons, List.flatten_cons, List.append_assoc]
    simp only [decodeNblocks]
    rw [decVarint64_rt nb _ (hnb nb (by simp)).2, Option.some_bind]
    rw [if_neg (by have := (hnb nb (by simp)).1; omega)]
    rw [ih extra (fun x hx => hnb x (by simp [hx])), Option.map_some']

theorem decodeCores_rt (bsz : Nat) (ck : List Nat → Nat → List Nat) (salt : List Nat) :
    ∀ (cores : List MapCore) (curPlan phase : Nat) (hcur : List Nat) (extra : List Nat),
      coresMatch bsz ck salt cores curPlan phase hcur →
      decodeCores bsz ck salt (cores.map (·.nblocks)) curPlan hcur phase
        ((cores.map (·.blocks)).flatten ++ extra) = some (cores, extra) := by
  intro cores
  induction cores with
  | nil =>
    intro curPlan phase hcur extra _
    simp [decodeCores]
  | cons c rest ih =>
    intro curPlan phase hcur extra hm
    obtain ⟨hhk, hbpv, h1, h2, h3, hrec⟩ := hm
    rw [List.map_cons, List.map_cons, List.flatten_cons, List.append_assoc]
    simp only [decodeCores]
    rw [← hbpv]
    rw [if_neg (by omega), if_neg (by omega)]
    rw [readN_append2 _ _ _ h3]
    dsimp only
    rw [ih _ _ _ _ hrec, Option.map_some']
    rw [← hhk]

end CodecRtLemmas

end FrayedCascade
